import Mathlib

/-!
Verification of the tast compilation and execution pipeline.

The definitions below are shallow embeddings of the corresponding Rust
source items (file and symbol named on each definition).  Graph nodes are
identified by their index into the node vector, mirroring the petgraph
representation used by `src/graph/builder.rs`.
-/

set_option maxHeartbeats 1600000

namespace Tast

/-! ### Graph model (src/graph/builder.rs, `TestGraph`)

A built test graph: a vector of node payloads (only the name is relevant
to the traversal and cycle-analysis claims) and a list of directed edges
as (source index, target index) pairs.  `node_indices` of the Rust
structure is the list `List.range n`. -/

structure TGraph where
  nodes : List String
  edges : List (Nat × Nat)
deriving Repr, DecidableEq

/-- Number of nodes of the graph. -/
def TGraph.n (g : TGraph) : Nat := g.nodes.length

/-- Structural invariant of a built `TestGraph`: every edge references
node indices that are in bounds (petgraph guarantees this by
construction; in the embedding it is an explicit hypothesis). -/
def ValidGraph (g : TGraph) : Prop := ∀ e ∈ g.edges, e.1 < g.n ∧ e.2 < g.n

instance (g : TGraph) : Decidable (ValidGraph g) :=
  inferInstanceAs (Decidable (∀ e ∈ g.edges, e.1 < g.n ∧ e.2 < g.n))

/-- A cycle in the graph: a start node `a` and a list `l` such that the
edge relation chains from `a` through `l` and back to `a`. -/
def HasCycle (g : TGraph) : Prop :=
  ∃ a l, List.Chain (fun u v => (u, v) ∈ g.edges) a (l ++ [a])

/-- Absence of any cycle. -/
def Acyclic (g : TGraph) : Prop := ¬ HasCycle g

/-- Outgoing neighbours of a node, in edge-list order
(petgraph `neighbors_directed(node, Outgoing)` up to iteration order,
which none of the verified claims depend on). -/
def out_neighbors (g : TGraph) (node : Nat) : List Nat :=
  g.edges.filterMap (fun e => if e.1 = node then some e.2 else none)

/-- Node payload name at an index (src/graph/builder.rs stores `IrNode`
payloads; `tg.graph[idx].name`). -/
def nameOf (g : TGraph) (i : Nat) : String := g.nodes.getD i ""

/-! ### Cycle analysis (src/graph/analysis.rs, `find_cycle` / `dfs_find_cycle`)

The Rust `dfs_find_cycle` is a depth-first walk carrying a `visited`
set, an `in_stack` set and the explicit `stack_path`.  The embedding
threads those sets as lists and uses an explicit fuel argument for the
recursion on unvisited nodes (fuel `g.n` is always sufficient, which the
completeness lemmas below establish). -/

/-- The neighbour loop of `dfs_find_cycle` (src/graph/analysis.rs lines
45-59): for each outgoing neighbour, recurse if unvisited, report a
cycle if the neighbour is on the current stack, otherwise continue.
`recCall` is the recursive entry into `dfs_find_cycle` at one less fuel. -/
def dfsNeighborLoop (g : TGraph)
    (recCall : Nat → List Nat → List Nat → List Nat → Option (List String) × List Nat) :
    List Nat → List Nat → List Nat → List Nat → Option (List String) × List Nat
  | [], visited, _, _ => (none, visited)
  | w :: rest, visited, in_stack, stack_path =>
    if w ∈ visited then
      if w ∈ in_stack then
        (some ((stack_path.drop (stack_path.indexOf w)).map (nameOf g)), visited)
      else
        dfsNeighborLoop g recCall rest visited in_stack stack_path
    else
      match recCall w visited in_stack stack_path with
      | (some cyc, v) => (some cyc, v)
      | (none, v) => dfsNeighborLoop g recCall rest v in_stack stack_path

/-- `dfs_find_cycle` (src/graph/analysis.rs lines 34-64): mark the node
visited, push it on the stack, walk its neighbours; on a clean return
the stack entries are restored (functionally: the caller keeps its own
`in_stack`/`stack_path`). -/
def dfs_find_cycle (g : TGraph) :
    Nat → Nat → List Nat → List Nat → List Nat → Option (List String) × List Nat
  | 0, _, visited, _, _ => (none, visited)
  | fuel + 1, node, visited, in_stack, stack_path =>
    dfsNeighborLoop g (dfs_find_cycle g fuel) (out_neighbors g node)
      (node :: visited) (node :: in_stack) (stack_path ++ [node])

/-- The start-node loop of `find_cycle` (src/graph/analysis.rs lines
22-29): try a DFS from every not-yet-visited node in index order. -/
def findCycleGo (g : TGraph) : List Nat → List Nat → Option (List String)
  | [], _ => none
  | s :: rest, visited =>
    if s ∈ visited then findCycleGo g rest visited
    else
      match dfs_find_cycle g g.n s visited [] [] with
      | (some cyc, _) => some cyc
      | (none, v) => findCycleGo g rest v

/-- `find_cycle` (src/graph/analysis.rs lines 14-32): DFS-based cycle
detection returning the names along a cycle path, or `none` for an
acyclic graph. -/
def find_cycle (g : TGraph) : Option (List String) :=
  findCycleGo g (List.range g.n) []

/-! ### Topological traversal (src/graph/traversal.rs, `topological`)

Modelled from the spec: `topological` delegates to the external
`petgraph::algo::toposort`, whose source is not part of this repository.
Spec 4.8: "Topological: Kahn-style or DFS-post-order reversal; fails
with cycle error citing one node in the cycle if the graph is cyclic."
The model is a Kahn-style sort; the error value is abstracted to
`none`. -/

/-- Modelled from the spec: one Kahn round — pick the first remaining
node with no incoming edge from a remaining node, append it, and repeat;
report a cycle error (`none`) when no such node exists.  The fuel is the
initial number of remaining nodes, which always suffices. -/
def kahnGo (g : TGraph) : Nat → List Nat → List Nat → Option (List Nat)
  | _, [], acc => some acc
  | 0, _ :: _, _ => none
  | fuel + 1, r :: rest, acc =>
    match (r :: rest).find? (fun v => !((r :: rest).any (fun u => decide ((u, v) ∈ g.edges)))) with
    | some v => kahnGo g fuel ((r :: rest).erase v) (acc ++ [v])
    | none => none

/-- Modelled from the spec: the topological traversal
(src/graph/traversal.rs `topological`, via the external petgraph
toposort).  Returns the visit order, or `none` on a cyclic graph. -/
def topological (g : TGraph) : Option (List Nat) :=
  kahnGo g g.n (List.range g.n) []

/-- Descending index walk `[c (b+m), ..., c b]`, used to extract a cycle
from a backwards predecessor walk. -/
def descListC (c : Nat → Nat) : Nat → Nat → List Nat
  | 0, b => [c b]
  | m + 1, b => c (b + m + 1) :: descListC c m b

/-- Completeness invariant for the DFS: among visited nodes that are no
longer on the stack, (i) every outgoing edge stays among such nodes, and
(ii) no cycle lies entirely among them. -/
def DfsInv (g : TGraph) (visited stack_path : List Nat) : Prop :=
  (∀ x, x ∈ visited → x ∉ stack_path → ∀ y, (x, y) ∈ g.edges →
    y ∈ visited ∧ y ∉ stack_path) ∧
  ∀ a l, List.Chain (fun u v => (u, v) ∈ g.edges) a (l ++ [a]) →
    (∀ x ∈ a :: l, x ∈ visited ∧ x ∉ stack_path) → False

/-- Concrete acyclic graph A → B used as the witness for C1. -/
def gWitAcyclic : TGraph := ⟨["A", "B"], [(0, 1)]⟩

/-- Concrete cyclic graph A ⇄ B used as the witness for C6. -/
def gWitCyclic : TGraph := ⟨["A", "B"], [(0, 1), (1, 0)]⟩

/-! ### Parameter resolution (src/ir/params.rs) and fixtures (src/ir/fixture.rs) -/

/-- Modelled from the spec: step-text fragments.  The `StepFragment`
enum is referenced by src/ir/params.rs but its declaration is missing
from the provided parser sources; spec 3 describes a step's "ordered
list of text fragments (literal text interleaved with named parameter
placeholders)". -/
inductive StepFragment where
  | Text (s : String)
  | Parameter (name : String)
deriving Repr, DecidableEq

/-- `BindingSource` (src/ir/params.rs lines 5-12). -/
inductive BindingSource where
  | Fixture (name : String)
  | EdgeData (name : String)
  | Unresolved
deriving Repr, DecidableEq

/-- `ParameterBinding` (src/ir/params.rs lines 16-21). -/
structure ParameterBinding where
  name : String
  value : Option String
  source : BindingSource
deriving Repr, DecidableEq

/-- `resolve_parameters` (src/ir/params.rs lines 27-53): for each
parameter fragment, look the name up in `available_data`; a hit is
tagged `EdgeData ""` (an empty producer name), a miss `Unresolved`. -/
def resolve_parameters (fragments : List StepFragment)
    (available_data : List (String × String)) : List ParameterBinding :=
  fragments.filterMap fun f =>
    match f with
    | .Parameter name =>
      some (match available_data.find? (fun kv => kv.1 = name) with
        | some kv => { name := name, value := some kv.2, source := .EdgeData "" }
        | none => { name := name, value := none, source := .Unresolved })
    | .Text _ => none

/-- `IrFixture` (src/ir/fixture.rs lines 7-10). -/
structure IrFixture where
  name : String
  fields : List (String × String)
deriving Repr, DecidableEq

/-- `resolve_fixture` (src/ir/fixture.rs lines 29-31). -/
def resolve_fixture (fixtures : List IrFixture) (name : String) : Option IrFixture :=
  fixtures.find? (fun f => f.name = name)

/-- `apply_fixture` (src/ir/fixture.rs lines 51-57): fixture fields are
appended only when the key is not already present. -/
def apply_fixture (step_data : List (String × String)) (fixture : IrFixture) :
    List (String × String) :=
  fixture.fields.foldl
    (fun acc kv => if acc.any (fun p => p.1 = kv.1) then acc else acc ++ [kv]) step_data

/-- Character test used by `extract_fixture_ref`
(`is_ascii_alphanumeric` or underscore). -/
def isIdentChar (c : Char) : Bool := c.isAlphanum || c = '_'

/-- Whether `pat` begins the character list `l`. -/
def charsStartWith : List Char → List Char → Bool
  | [], _ => true
  | _ :: _, [] => false
  | p :: ps, c :: cs => p = c && charsStartWith ps cs

/-- First index at which `pat` occurs as a sublist (Rust `str::find`;
indices are character positions, which agree with byte positions on the
ASCII pattern involved). -/
def findSubIdx (pat : List Char) : List Char → Option Nat
  | [] => if pat.isEmpty then some 0 else none
  | c :: cs =>
    if charsStartWith pat (c :: cs) then some 0
    else (findSubIdx pat cs).map (· + 1)

/-- `extract_fixture_ref` (src/ir/fixture.rs lines 37-47): find the
case-insensitive marker `from fixture ` and read the following
identifier. -/
def extract_fixture_ref (text : String) : Option String :=
  let chars := text.toList
  let lower := chars.map Char.toLower
  match findSubIdx ("from fixture ".toList) lower with
  | none => none
  | some idx =>
    let after := chars.drop (idx + "from fixture ".length)
    let name := after.takeWhile isIdentChar
    if name.isEmpty then none else some (String.mk name)

/-! ### Inline-data extraction (src/parser/extract.rs) -/

/-- `ExtractToken` (src/parser/extract.rs lines 96-102). -/
inductive ExtractToken where
  | Word (s : String)
  | QuotedString (s : String)
  | Number (s : String)
  | BindingVerb
deriving Repr, DecidableEq

/-- The binding verbs of src/parser/extract.rs line 9. -/
def BINDING_VERBS : List String := ["is", "has", "with", "having", "contains"]

/-- Consume a quoted string after the opening quote, handling `\`
escapes; returns the content and the remaining characters
(src/parser/extract.rs lines 124-141). -/
def scanQuoted : List Char → List Char × List Char
  | [] => ([], [])
  | '\\' :: rest =>
    match rest with
    | [] => ([], [])
    | e :: rest' =>
      let (s, r) := scanQuoted rest'
      (e :: s, r)
  | '"' :: rest => ([], rest)
  | c :: rest =>
    let (s, r) := scanQuoted rest
    (c :: s, r)

/-- One word/number/verb token classification
(src/parser/extract.rs lines 143-169). -/
def classifyWord (word : List Char) : ExtractToken :=
  if word.all (fun c => c.isDigit || c = '.') && word.any (fun c => c.isDigit) then
    .Number (String.mk word)
  else
    let lower := String.mk (word.map Char.toLower)
    if BINDING_VERBS.contains lower then .BindingVerb else .Word lower

/-- The tokenizer loop of `tokenize_for_extraction`
(src/parser/extract.rs lines 105-173); every round consumes at least one
character, so fuel `length + 1` always suffices. -/
def tokenizeGo : Nat → List Char → List ExtractToken
  | 0, _ => []
  | fuel + 1, chars =>
    let chars' := chars.dropWhile (fun c => c.isWhitespace)
    match chars' with
    | [] => []
    | '"' :: rest =>
      let (s, r) := scanQuoted rest
      .QuotedString (String.mk s) :: tokenizeGo fuel r
    | c :: rest =>
      let word := (c :: rest).takeWhile (fun ch => !ch.isWhitespace && ch ≠ '"')
      let rest' := (c :: rest).dropWhile (fun ch => !ch.isWhitespace && ch ≠ '"')
      classifyWord word :: tokenizeGo fuel rest'

/-- `tokenize_for_extraction` (src/parser/extract.rs lines 105-173). -/
def tokenize_for_extraction (text : String) : List ExtractToken :=
  tokenizeGo (text.length + 1) text.toList

/-- The scanning loop of `extract_data` (src/parser/extract.rs lines
26-91): `binding-verb word value`, `word value` and
`word binding-verb value` produce pairs; anything else advances one
token. -/
def extractGo : List ExtractToken → List (String × String)
  | [] => []
  | .BindingVerb :: .Word key :: .QuotedString val :: rest' => (key, val) :: extractGo rest'
  | .BindingVerb :: .Word key :: .Number val :: rest' => (key, val) :: extractGo rest'
  | .Word key :: .QuotedString val :: rest' => (key, val) :: extractGo rest'
  | .Word key :: .Number val :: rest' => (key, val) :: extractGo rest'
  | .Word key :: .BindingVerb :: .QuotedString val :: rest' => (key, val) :: extractGo rest'
  | .Word key :: .BindingVerb :: .Number val :: rest' => (key, val) :: extractGo rest'
  | _ :: rest => extractGo rest

/-- `extract_data` (src/parser/extract.rs lines 21-94), returning the
extracted key/value field list. -/
def extract_data (text : String) : List (String × String) :=
  extractGo (tokenize_for_extraction text)

/-! ### Step lowering, data merge and parameter binding (src/ir/mod.rs) -/

/-- Step kinds (src/ir/mod.rs `IrStepType`, mirrored one-to-one from the
parser's `StepType`). -/
inductive IrStepType where
  | Given
  | When
  | Then
  | And
  | But
deriving Repr, DecidableEq

/-- Data-block values (src/parser/ast.rs `Value`).  Numeric literals are
abstracted to their decimal rendering, which is all `format_value`
observes of them; no verified claim depends on float formatting. -/
inductive Value where
  | Str (s : String)
  | Num (rendered : String)
  | BoolV (b : Bool)
  | Null
deriving Repr, DecidableEq

/-- `format_value` (src/ir/mod.rs lines 196-205). -/
def format_value : Value → String
  | .Str s => s
  | .Num r => r
  | .BoolV b => if b then "true" else "false"
  | .Null => "null"

/-- A parser-AST step (src/parser/ast.rs `Step`; the `fragments` field
is modelled from the spec, see `StepFragment`).  Spans are omitted. -/
structure AstStep where
  step_type : IrStepType
  text : String
  data : Option (List (String × Value))
  fragments : List StepFragment
deriving Repr, DecidableEq

/-- `IrStep` (src/ir/mod.rs lines 49-58). -/
structure IrStep where
  step_type : IrStepType
  text : String
  normalized_text : String
  data : List (String × String)
  parameters : List ParameterBinding
deriving Repr, DecidableEq

/-- The data-merge and parameter-resolution portion of `lower`
(src/ir/mod.rs lines 92-121): explicit data-block fields first, then
prose-extracted pairs for missing keys, then fixture fields for missing
keys, and finally `resolve_parameters` against the merged list. -/
def lower_step_data (s : AstStep) (fixtures : List IrFixture) :
    List (String × String) × List ParameterBinding :=
  let data0 : List (String × String) :=
    (s.data.map (fun d => d.map (fun kv => (kv.1, format_value kv.2)))).getD []
  let data1 := (extract_data s.text).foldl
    (fun acc kv => if acc.any (fun p => p.1 = kv.1) then acc else acc ++ [kv]) data0
  let data2 :=
    match extract_fixture_ref s.text with
    | some fixture_name =>
      match resolve_fixture fixtures fixture_name with
      | some f => apply_fixture data1 f
      | none => data1
    | none => data1
  (data2, resolve_parameters s.fragments data2)

/-- Concrete step referencing fixture `F` through the prose marker, with
one `role` parameter placeholder; its merged data comes entirely from
the fixture. -/
def c4Step : AstStep :=
  { step_type := .Given, text := "a user from fixture F", data := none,
    fragments := [.Parameter "role"] }

/-- The fixture list for `c4Step`. -/
def c4Fixtures : List IrFixture := [⟨"F", [("role", "admin")]⟩]

/-- Concrete step with an unresolvable parameter placeholder. -/
def c4wStep : AstStep :=
  { step_type := .Given, text := "plain words only", data := none,
    fragments := [.Parameter "missing"] }

/-- The (empty) fixture list for `c4wStep`. -/
def c4wFixtures : List IrFixture := []

/-! ### Plan model (src/plan/types.rs) -/

/-- `PlanMetadata` (src/plan/types.rs lines 12-17). -/
structure PlanMetadata where
  name : String
  traversal : String
  nodes_total : Nat
  edges_total : Nat
deriving Repr, DecidableEq

/-- `StepEntry` as constructed by the plan compiler
(src/plan/compiler.rs lines 76-80; src/plan/types.rs lines 44-52 — the
serialisation-only `parameters` field is populated by no code any claim
refers to and is omitted). -/
structure StepEntry where
  step_type : String
  text : String
  data : List (String × String)
deriving Repr, DecidableEq

/-- `InputEntry` (src/plan/types.rs lines 65-68); `from` is a Lean
keyword, hence `from_`. -/
structure InputEntry where
  field : String
  from_ : String
deriving Repr, DecidableEq

/-- `PlanStep` (src/plan/types.rs lines 21-40). -/
structure PlanStep where
  order : Nat
  node : String
  description : Option String
  tags : List String
  depends_on : List String
  preconditions : List StepEntry
  actions : List StepEntry
  assertions : List StepEntry
  inputs : List InputEntry
  outputs : List String
deriving Repr, DecidableEq

/-- `TestPlan` (src/plan/types.rs lines 5-8). -/
structure TestPlan where
  plan : PlanMetadata
  steps : List PlanStep
deriving Repr, DecidableEq

/-! ### Step categorisation (src/plan/compiler.rs lines 69-101) -/

/-- `StepCategory` (src/plan/compiler.rs lines 128-133). -/
inductive StepCategory where
  | Precondition
  | Action
  | Assertion
deriving Repr, DecidableEq

/-- `step_type_str` (src/plan/compiler.rs lines 135-143). -/
def step_type_str : IrStepType → String
  | .Given => "given"
  | .When => "when"
  | .Then => "then"
  | .And => "and"
  | .But => "but"

/-- The `StepEntry` built for one IR step
(src/plan/compiler.rs lines 76-80). -/
def mkStepEntry (step : IrStep) : StepEntry :=
  { step_type := step_type_str step.step_type, text := step.text, data := step.data }

/-- The categorisation loop of `compile_with_strategy`
(src/plan/compiler.rs lines 69-101): `given`/`when`/`then` set the
current category and append to their list; `and`/`but` append to the
list selected by the current category. -/
def categorizeGo : List IrStep → List StepEntry → List StepEntry → List StepEntry →
    StepCategory → List StepEntry × List StepEntry × List StepEntry
  | [], pre, act, asrt, _ => (pre, act, asrt)
  | step :: rest, pre, act, asrt, last_category =>
    let entry := mkStepEntry step
    match step.step_type with
    | .Given => categorizeGo rest (pre ++ [entry]) act asrt .Precondition
    | .When => categorizeGo rest pre (act ++ [entry]) asrt .Action
    | .Then => categorizeGo rest pre act (asrt ++ [entry]) .Assertion
    | .And =>
      match last_category with
      | .Precondition => categorizeGo rest (pre ++ [entry]) act asrt last_category
      | .Action => categorizeGo rest pre (act ++ [entry]) asrt last_category
      | .Assertion => categorizeGo rest pre act (asrt ++ [entry]) last_category
    | .But =>
      match last_category with
      | .Precondition => categorizeGo rest (pre ++ [entry]) act asrt last_category
      | .Action => categorizeGo rest pre (act ++ [entry]) asrt last_category
      | .Assertion => categorizeGo rest pre act (asrt ++ [entry]) last_category

/-- Step categorisation of one node: the walk starts with current
category precondition (src/plan/compiler.rs line 73). -/
def categorize_steps (steps : List IrStep) :
    List StepEntry × List StepEntry × List StepEntry :=
  categorizeGo steps [] [] [] .Precondition

/-- Declarative effective category of one step kind given the current
category: `given`/`when`/`then` override, `and`/`but` inherit. -/
def effCat (c : StepCategory) : IrStepType → StepCategory
  | .Given => .Precondition
  | .When => .Action
  | .Then => .Assertion
  | .And => c
  | .But => c

/-- Assign every step its effective category, starting from `c`. -/
def assignCats (c : StepCategory) : List IrStep → List (IrStep × StepCategory)
  | [] => []
  | s :: rest =>
    (s, effCat c s.step_type) :: assignCats (effCat c s.step_type) rest

/-! ### Tag filtering (src/plan/filter.rs) -/

/-- `TagPredicate` (src/plan/filter.rs lines 8-13). -/
inductive TagPredicate where
  | Include (tag : String)
  | Exclude (tag : String)
  | And (preds : List TagPredicate)
  | Or (preds : List TagPredicate)

mutual

/-- `TagPredicate::matches` (src/plan/filter.rs lines 16-23). -/
def TagPredicate.matches : TagPredicate → List String → Bool
  | .Include tag, tags => tags.any (fun t => t = tag)
  | .Exclude tag, tags => !(tags.any (fun t => t = tag))
  | .And preds, tags => matchesAll preds tags
  | .Or preds, tags => matchesAny preds tags

/-- `iter().all(matches)` over child predicates. -/
def matchesAll : List TagPredicate → List String → Bool
  | [], _ => true
  | p :: ps, tags => p.matches tags && matchesAll ps tags

/-- `iter().any(matches)` over child predicates. -/
def matchesAny : List TagPredicate → List String → Bool
  | [], _ => false
  | p :: ps, tags => p.matches tags || matchesAny ps tags

end

/-- `filter_plan` (src/plan/filter.rs lines 92-108): keep matching
steps, renumber from 1, update the node total. -/
def filter_plan (plan : TestPlan) (predicate : TagPredicate) : TestPlan :=
  let filtered_steps := plan.steps.filter (fun step => predicate.matches step.tags)
  let renumbered := filtered_steps.mapIdx (fun i step => { step with order := i + 1 })
  { plan := { plan.plan with nodes_total := renumbered.length },
    steps := renumbered }

/-- A plan step with its order erased, for order-insensitive
comparison. -/
def stripOrder (s : PlanStep) : PlanStep := { s with order := 0 }

/-! ### Runner data model (src/runner/result.rs, backend.rs, context.rs)

Durations are modelled in milliseconds as naturals; `Duration::ZERO`
is `0`. -/

/-- `StepStatus` (src/runner/result.rs lines 7-12). -/
inductive StepStatus where
  | Passed
  | Failed
  | Skipped
  | Error
deriving Repr, DecidableEq

/-- `AssertionResult` (src/runner/result.rs lines 84-88). -/
structure AssertionResult where
  text : String
  passed : Bool
  message : Option String
deriving Repr, DecidableEq

/-- `StepErrorKind` (src/runner/result.rs lines 106-121). -/
inductive StepErrorKind where
  | AssertionFailed
  | SetupFailed
  | ActionFailed
  | Timeout
  | CompilationError
  | RuntimeError
  | MissingInput
deriving Repr, DecidableEq

/-- `StepError` (src/runner/result.rs lines 92-96). -/
structure StepError where
  kind : StepErrorKind
  message : String
  detail : Option String
deriving Repr, DecidableEq

/-- `StepResult` (src/runner/result.rs lines 27-36). -/
structure StepResult where
  node : String
  status : StepStatus
  duration : Nat
  outputs : List (String × String)
  assertions : List AssertionResult
  error : Option StepError
  stdout : String
  stderr : String
deriving Repr, DecidableEq

/-- `StepResult::passed` (src/runner/result.rs lines 40-51). -/
def StepResult.passed (node : String) (duration : Nat) : StepResult :=
  ⟨node, .Passed, duration, [], [], none, "", ""⟩

/-- `StepResult::failed` (src/runner/result.rs lines 54-65). -/
def StepResult.failed (node : String) (duration : Nat) (error : StepError) : StepResult :=
  ⟨node, .Failed, duration, [], [], some error, "", ""⟩

/-- `StepResult::skipped` (src/runner/result.rs lines 68-79): zero
duration, no outputs, no error. -/
def StepResult.skipped (node : String) : StepResult :=
  ⟨node, .Skipped, 0, [], [], none, "", ""⟩

/-- `GeneratedHarness` (src/runner/backend.rs). -/
structure GeneratedHarness where
  files : List String
  entry_point : String
  metadata : List (String × String)
deriving Repr, DecidableEq

/-- `BackendErrorKind` (src/runner/backend.rs). -/
inductive BackendErrorKind where
  | ProjectNotDetected
  | HarnessGenerationFailed
  | ExecutionFailed
  | CleanupFailed
  | UnsupportedFeature
deriving Repr, DecidableEq

/-- `BackendError` (src/runner/backend.rs). -/
structure BackendError where
  kind : BackendErrorKind
  message : String
  detail : Option String
deriving Repr, DecidableEq

/-- `RunContext` (src/runner/context.rs lines 9-18); the `HashMap` of
step outputs is modelled as an association list whose lookup takes the
most recent insertion. -/
structure RunContext where
  step_outputs : List (String × List (String × String))
  default_timeout : Nat
  working_dir : String
  capture_output : Bool
deriving Repr, DecidableEq

/-- `RunContext::record_outputs` (src/runner/context.rs lines 32-34):
`HashMap::insert`, i.e. replace any previous entry for the node. -/
def RunContext.record_outputs (ctx : RunContext) (node : String)
    (outputs : List (String × String)) : RunContext :=
  { ctx with step_outputs :=
      (node, outputs) :: ctx.step_outputs.filter (fun p => p.1 ≠ node) }

/-- The map lookup `step_outputs.get(node)` backing `has_outputs` and
`resolve_inputs` (src/runner/context.rs). -/
def RunContext.lookup (ctx : RunContext) (node : String) :
    Option (List (String × String)) :=
  (ctx.step_outputs.find? (fun p => p.1 = node)).map (fun p => p.2)

/-- A backend's `execute_step` capability (src/runner/backend.rs,
`TestBackend::execute_step`): it may mutate the run context and returns
either a step result or a backend error.  The other capabilities play no
part in the verified claims. -/
def TestBackend : Type :=
  PlanStep → GeneratedHarness → RunContext → Except BackendError StepResult × RunContext

/-- `RunConfig` (src/runner/executor.rs lines 14-29). -/
structure RunConfig where
  backend_name : Option String
  timeout : Nat
  parallel : Nat
  fail_fast : Bool
  capture_output : Bool
  working_dir : String
  clean_harness : Bool
deriving Repr, DecidableEq

/-- `TestRunner::execute_step` (src/runner/executor.rs lines 182-201):
invoke the backend and translate an infrastructure error into a failed
result with kind runtime-error and zero duration. -/
def execute_step (backend : TestBackend) (step : PlanStep)
    (harness : GeneratedHarness) (context : RunContext) : StepResult × RunContext :=
  match backend step harness context with
  | (Except.ok result, c) => (result, c)
  | (Except.error e, c) =>
    (StepResult.failed step.node 0 ⟨.RuntimeError, e.message, e.detail⟩, c)

/-- `TestRunner::has_failed_dependency` (src/runner/executor.rs lines
204-206). -/
def has_failed_dependency (step : PlanStep) (failed_nodes : List String) : Bool :=
  step.depends_on.any (fun dep => failed_nodes.contains dep)

/-- The loop of `TestRunner::execute_steps` (src/runner/executor.rs
lines 138-179), threading the stop flag, the failed-nodes set and the
run context. -/
def executeStepsGo (backend : TestBackend) (cfg : RunConfig)
    (harness : GeneratedHarness) :
    List PlanStep → Bool → List String → RunContext → List StepResult
  | [], _, _, _ => []
  | step :: rest, stop, failed_nodes, context =>
    if stop then
      StepResult.skipped step.node ::
        executeStepsGo backend cfg harness rest stop failed_nodes context
    else if has_failed_dependency step failed_nodes then
      StepResult.skipped step.node ::
        executeStepsGo backend cfg harness rest stop failed_nodes context
    else
      let result := (execute_step backend step harness context).1
      let context2 := (execute_step backend step harness context).2
      let failed' := if result.status = .Failed ∨ result.status = .Error then
          step.node :: failed_nodes else failed_nodes
      let stop' := if (result.status = .Failed ∨ result.status = .Error) ∧ cfg.fail_fast then
          true else stop
      let context3 := if result.outputs ≠ [] then
          context2.record_outputs step.node result.outputs else context2
      result :: executeStepsGo backend cfg harness rest stop' failed' context3

/-- `TestRunner::execute_steps` (src/runner/executor.rs lines 138-179). -/
def execute_steps (backend : TestBackend) (cfg : RunConfig)
    (harness : GeneratedHarness) (plan : TestPlan) (context : RunContext) :
    List StepResult :=
  executeStepsGo backend cfg harness plan.steps false [] context

/-- Instrumented twin of the `execute_steps` loop: each entry carries
the recorded result, whether the backend's `execute_step` was invoked
for that plan step, and the run context after the step.  Proved to
project onto `executeStepsGo`. -/
def executeStepsTraceGo (backend : TestBackend) (cfg : RunConfig)
    (harness : GeneratedHarness) :
    List PlanStep → Bool → List String → RunContext →
      List (StepResult × Bool × RunContext)
  | [], _, _, _ => []
  | step :: rest, stop, failed_nodes, context =>
    if stop then
      (StepResult.skipped step.node, false, context) ::
        executeStepsTraceGo backend cfg harness rest stop failed_nodes context
    else if has_failed_dependency step failed_nodes then
      (StepResult.skipped step.node, false, context) ::
        executeStepsTraceGo backend cfg harness rest stop failed_nodes context
    else
      let result := (execute_step backend step harness context).1
      let context2 := (execute_step backend step harness context).2
      let failed' := if result.status = .Failed ∨ result.status = .Error then
          step.node :: failed_nodes else failed_nodes
      let stop' := if (result.status = .Failed ∨ result.status = .Error) ∧ cfg.fail_fast then
          true else stop
      let context3 := if result.outputs ≠ [] then
          context2.record_outputs step.node result.outputs else context2
      (result, true, context3) ::
        executeStepsTraceGo backend cfg harness rest stop' failed' context3

/-- Instrumented `execute_steps` over a plan. -/
def execute_steps_trace (backend : TestBackend) (cfg : RunConfig)
    (harness : GeneratedHarness) (plan : TestPlan) (context : RunContext) :
    List (StepResult × Bool × RunContext) :=
  executeStepsTraceGo backend cfg harness plan.steps false [] context

/-- Entries of the given category, in order. -/
def catFilter (c : StepCategory) (l : List (IrStep × StepCategory)) : List StepEntry :=
  (l.filter (fun p => p.2 = c)).map (fun p => mkStepEntry p.1)

/-- The parameter names occurring in a fragment list. -/
def fragmentParams (fragments : List StepFragment) : List String :=
  fragments.filterMap (fun f =>
    match f with
    | .Parameter n => some n
    | .Text _ => none)

/-! ### Concrete runner fixtures for witnesses and counterexamples -/

/-- A trivial harness value. -/
def cxHarness : GeneratedHarness := ⟨[], "harness", []⟩

/-- A fresh run context (src/runner/context.rs `RunContext::new`). -/
def cxContext : RunContext := ⟨[], 60, ".", true⟩

/-- The default run configuration (fail-fast off). -/
def cxConfig : RunConfig := ⟨none, 60, 1, false, true, ".", true⟩

/-- The default run configuration with fail-fast on. -/
def cxConfigFF : RunConfig := ⟨none, 60, 1, true, true, ".", true⟩

/-- A bare plan step with only order, node and dependencies. -/
def mkPlanStep (order : Nat) (node : String) (deps : List String) : PlanStep :=
  ⟨order, node, none, [], deps, [], [], [], [], []⟩

/-- A mock backend failing exactly node B. -/
def bkFailB : TestBackend := fun step _ ctx =>
  if step.node = "B" then
    (Except.ok (StepResult.failed step.node 10 ⟨.AssertionFailed, "mock failure", none⟩), ctx)
  else (Except.ok (StepResult.passed step.node 10), ctx)

/-- A mock backend failing exactly node A. -/
def bkFailA : TestBackend := fun step _ ctx =>
  if step.node = "A" then
    (Except.ok (StepResult.failed step.node 10 ⟨.AssertionFailed, "mock failure", none⟩), ctx)
  else (Except.ok (StepResult.passed step.node 10), ctx)

/-- A mock backend passing every step with output map x ↦ 1. -/
def bkOutputs : TestBackend := fun step _ ctx =>
  (Except.ok { StepResult.passed step.node 10 with outputs := [("x", "1")] }, ctx)

/-- A mock backend passing every step with an empty output map. -/
def bkNoOutputs : TestBackend := fun step _ ctx =>
  (Except.ok (StepResult.passed step.node 10), ctx)

/-- Chain plan A → B → C. -/
def planABC : TestPlan :=
  ⟨⟨"P", "topological", 3, 2⟩,
    [mkPlanStep 1 "A" [], mkPlanStep 2 "B" ["A"], mkPlanStep 3 "C" ["B"]]⟩

/-- Single-step plan. -/
def planA : TestPlan := ⟨⟨"P", "topological", 1, 0⟩, [mkPlanStep 1 "A" []]⟩

/-- Default trace entry for out-of-range access. -/
def dTrace : StepResult × Bool × RunContext := (StepResult.skipped "", false, cxContext)

/-! ### Generic chain and cycle helpers -/

/-- Every element of a chain has a predecessor among the start node and
the chain elements. -/
lemma chain_pred_mem {R : Nat → Nat → Prop} :
    ∀ (m : List Nat) (c : Nat), List.Chain R c m → ∀ x ∈ m, ∃ y ∈ c :: m, R y x := by
  intro m
  induction m with
  | nil => intro c _ x hx; cases hx
  | cons d m' ih =>
    intro c hch x hx
    rcases List.chain_cons.mp hch with ⟨hcd, hch'⟩
    rcases List.mem_cons.mp hx with rfl | hx'
    · exact ⟨c, List.mem_cons_self c _, hcd⟩
    · rcases ih d hch' x hx' with ⟨y, hy, hr⟩
      exact ⟨y, List.mem_cons_of_mem c hy, hr⟩

/-- Every node on a cycle `a :: l` has a predecessor on the cycle. -/
lemma cycle_pred {g : TGraph} {a : Nat} {l : List Nat}
    (h : List.Chain (fun u v => (u, v) ∈ g.edges) a (l ++ [a])) :
    ∀ x ∈ a :: l, ∃ y ∈ a :: l, (y, x) ∈ g.edges := by
  intro x hx
  have hx' : x ∈ l ++ [a] := by
    rcases List.mem_cons.mp hx with rfl | hx'
    · exact List.mem_append_right l (List.mem_singleton.mpr rfl)
    · exact List.mem_append_left _ hx'
  rcases chain_pred_mem (l ++ [a]) a h x hx' with ⟨y, hy, hr⟩
  refine ⟨y, ?_, hr⟩
  rcases List.mem_cons.mp hy with heq | hy'
  · rw [heq]; exact List.mem_cons_self a l
  · rcases List.mem_append.mp hy' with hyl | hya
    · exact List.mem_cons_of_mem a hyl
    · rw [List.mem_singleton.mp hya]; exact List.mem_cons_self a l

/-- If a function increases strictly along the relation, no cycle chain
can exist. -/
lemma chain_cycle_absurd {R : Nat → Nat → Prop} {h : Nat → Nat}
    (hR : ∀ u v, R u v → h u < h v) :
    ∀ (l : List Nat) (a : Nat), ¬ List.Chain R a (l ++ [a]) := by
  have aux : ∀ (l : List Nat) (a x : Nat), List.Chain R x (l ++ [a]) → h x < h a := by
    intro l
    induction l with
    | nil =>
      intro a x hch
      have := List.chain_cons.mp hch
      exact hR _ _ this.1
    | cons y l' ih =>
      intro a x hch
      have h1 := List.chain_cons.mp hch
      exact lt_trans (hR _ _ h1.1) (ih a y h1.2)
  intro l a hch
  exact lt_irrefl _ (aux l a a hch)

/-- A duplicate-free list of naturals below `n` of length at least `n`
contains every natural below `n`. -/
lemma mem_of_nodup_bounded_length {l : List Nat} {n : Nat}
    (hnd : l.Nodup) (hlt : ∀ x ∈ l, x < n) (hlen : n ≤ l.length) :
    ∀ y, y < n → y ∈ l := by
  intro y hy
  have hsub : l.toFinset ⊆ Finset.range n := by
    intro x hx
    exact Finset.mem_range.mpr (hlt x (List.mem_toFinset.mp hx))
  have hcard : (Finset.range n).card ≤ l.toFinset.card := by
    rw [Finset.card_range, List.toFinset_card_of_nodup hnd]
    exact hlen
  have := Finset.eq_of_subset_of_card_le hsub hcard
  have hyin : y ∈ l.toFinset := by
    rw [this]; exact Finset.mem_range.mpr hy
  exact List.mem_toFinset.mp hyin

lemma descListC_chain {R : Nat → Nat → Prop} (c : Nat → Nat)
    (hstep : ∀ k, R (c (k + 1)) (c k)) :
    ∀ (m b : Nat), List.Chain R (c (b + m + 1)) (descListC c m b) := by
  intro m
  induction m with
  | zero => intro b; exact List.Chain.cons (hstep b) List.Chain.nil
  | succ m ih =>
    intro b
    show List.Chain R (c (b + (m + 1) + 1)) (c (b + m + 1) :: descListC c m b)
    have harith : b + (m + 1) + 1 = (b + m + 1) + 1 := by omega
    rw [harith]
    exact List.Chain.cons (hstep (b + m + 1)) (ih b)

lemma descListC_snoc (c : Nat → Nat) :
    ∀ (m b : Nat), ∃ l', descListC c m b = l' ++ [c b] := by
  intro m
  induction m with
  | zero => intro b; exact ⟨[], rfl⟩
  | succ m ih =>
    intro b
    rcases ih b with ⟨l', hl'⟩
    exact ⟨c (b + m + 1) :: l', by simp [descListC, hl']⟩

/-- If every node of a non-empty set has a predecessor inside the set,
the graph has a cycle (backwards walk plus pigeonhole). -/
lemma hasCycle_of_preds (g : TGraph) (S : List Nat) (hne : S ≠ [])
    (h : ∀ v ∈ S, ∃ u ∈ S, (u, v) ∈ g.edges) : HasCycle g := by
  classical
  set f : Nat → Nat := fun v => if hv : v ∈ S then (h v hv).choose else 0 with hf_def
  have hf : ∀ v ∈ S, f v ∈ S ∧ (f v, v) ∈ g.edges := by
    intro v hv
    have hspec := (h v hv).choose_spec
    simp only [hf_def, dif_pos hv]
    exact ⟨hspec.1, hspec.2⟩
  set c : Nat → Nat := fun k => f^[k] (S.head hne) with hc_def
  have hc : ∀ k, c k ∈ S := by
    intro k
    induction k with
    | zero => simp only [hc_def, Function.iterate_zero, id]; exact List.head_mem hne
    | succ k ihk =>
      have hit : c (k + 1) = f (c k) := by
        simp only [hc_def]; exact Function.iterate_succ_apply' f k _
      rw [hit]
      exact (hf _ ihk).1
  have hce : ∀ k, (c (k + 1), c k) ∈ g.edges := by
    intro k
    have hit : c (k + 1) = f (c k) := by
      simp only [hc_def]; exact Function.iterate_succ_apply' f k _
    rw [hit]
    exact (hf _ (hc k)).2
  have key : ∀ i j : Nat, i < j → c i = c j → HasCycle g := by
    intro i j hij heq
    have hj : i + (j - i - 1) + 1 = j := by omega
    have hchain := descListC_chain (R := fun u v => (u, v) ∈ g.edges) c hce (j - i - 1) i
    rcases descListC_snoc c (j - i - 1) i with ⟨l', hl'⟩
    rw [hj, hl', heq] at hchain
    exact ⟨c j, l', hchain⟩
  have hcard : (S.toFinset).card < (Finset.range (S.length + 1)).card := by
    rw [Finset.card_range]
    exact Nat.lt_succ_of_le S.toFinset_card_le
  obtain ⟨i, _, j, _, hij, heq⟩ :=
    Finset.exists_ne_map_eq_of_card_lt_of_maps_to hcard
      (fun k _ => List.mem_toFinset.mpr (hc k))
  rcases lt_or_gt_of_ne hij with hlt | hlt
  · exact key i j hlt heq
  · exact key j i hlt heq.symm

/-! ### Correctness of the Kahn-style topological model -/

/-- Soundness invariant of `kahnGo`: on success the result is a
permutation of the pending nodes and respects every edge between
result members. -/
lemma kahnGo_sound (g : TGraph) :
    ∀ (fuel : Nat) (rem acc L : List Nat),
      rem.length ≤ fuel →
      (acc ++ rem).Nodup →
      (∀ u v, (u, v) ∈ g.edges → (u ∈ acc ∨ u ∈ rem) → v ∈ acc →
        u ∈ acc ∧ acc.indexOf u < acc.indexOf v) →
      kahnGo g fuel rem acc = some L →
      L.Perm (acc ++ rem) ∧
        ∀ u v, (u, v) ∈ g.edges → u ∈ L → v ∈ L → L.indexOf u < L.indexOf v := by
  intro fuel
  induction fuel with
  | zero =>
    intro rem acc L hlen hnd hinv hk
    cases rem with
    | nil =>
      simp only [kahnGo, Option.some.injEq] at hk
      subst hk
      refine ⟨by simp, ?_⟩
      intro u v he hu hv
      exact (hinv u v he (Or.inl hu) hv).2
    | cons r rest => simp at hlen
  | succ f ih =>
    intro rem acc L hlen hnd hinv hk
    cases rem with
    | nil =>
      simp only [kahnGo, Option.some.injEq] at hk
      subst hk
      refine ⟨by simp, ?_⟩
      intro u v he hu hv
      exact (hinv u v he (Or.inl hu) hv).2
    | cons r rest =>
      rw [kahnGo] at hk
      cases hfind : (r :: rest).find?
          (fun v => !((r :: rest).any (fun u => decide ((u, v) ∈ g.edges)))) with
      | none => rw [hfind] at hk; cases hk
      | some v =>
        rw [hfind] at hk
        have hvmem : v ∈ r :: rest := List.mem_of_find?_eq_some hfind
        have hvp : ∀ u ∈ r :: rest, (u, v) ∉ g.edges := by
          have := List.find?_some hfind
          simp only [Bool.not_eq_eq_eq_not, Bool.not_true, List.any_eq_false,
            decide_eq_true_eq] at this
          exact this
        have hvnacc : v ∉ acc := by
          intro hva
          have := (List.nodup_append.mp hnd).2.2
          exact this hva hvmem
        have happ : (acc ++ [v]) ++ (r :: rest).erase v = acc ++ (v :: (r :: rest).erase v) := by
          rw [List.append_assoc]; rfl
        have hperm0 : ((acc ++ [v]) ++ (r :: rest).erase v).Perm (acc ++ (r :: rest)) := by
          rw [happ]
          exact (List.Perm.append_left acc (List.perm_cons_erase hvmem)).symm
        have hlen' : ((r :: rest).erase v).length ≤ f := by
          rw [List.length_erase_of_mem hvmem]
          simp only [List.length_cons] at hlen ⊢
          omega
        have hnd' : ((acc ++ [v]) ++ (r :: rest).erase v).Nodup := hperm0.symm.nodup hnd
        have hinv' : ∀ u w, (u, w) ∈ g.edges →
            (u ∈ acc ++ [v] ∨ u ∈ (r :: rest).erase v) → w ∈ acc ++ [v] →
            u ∈ acc ++ [v] ∧ (acc ++ [v]).indexOf u < (acc ++ [v]).indexOf w := by
          intro u w he hu hw
          have huor : u ∈ acc ∨ u ∈ r :: rest := by
            rcases hu with hu1 | hu2
            · rcases List.mem_append.mp hu1 with h1 | h2
              · exact Or.inl h1
              · rw [List.mem_singleton.mp h2]; exact Or.inr hvmem
            · exact Or.inr (List.mem_of_mem_erase hu2)
          rcases List.mem_append.mp hw with hwa | hwv
          · have hbase := hinv u w he huor hwa
            refine ⟨List.mem_append_left _ hbase.1, ?_⟩
            rw [List.indexOf_append_of_mem hbase.1, List.indexOf_append_of_mem hwa]
            exact hbase.2
          · have hwv' : w = v := List.mem_singleton.mp hwv
            subst hwv'
            have hua : u ∈ acc := by
              rcases huor with h1 | h2
              · exact h1
              · exact absurd he (hvp u h2)
            refine ⟨List.mem_append_left _ hua, ?_⟩
            rw [List.indexOf_append_of_mem hua, List.indexOf_append_of_not_mem hvnacc]
            simp only [List.indexOf_cons_self, Nat.add_zero]
            exact List.indexOf_lt_length.mpr hua
        have hres := ih ((r :: rest).erase v) (acc ++ [v]) L hlen' hnd' hinv' hk
        exact ⟨hres.1.trans hperm0, hres.2⟩

/-- Completeness of the Kahn model: an error report implies a cycle. -/
lemma kahnGo_none (g : TGraph) :
    ∀ (fuel : Nat) (rem acc : List Nat), rem.length ≤ fuel →
      kahnGo g fuel rem acc = none → HasCycle g := by
  intro fuel
  induction fuel with
  | zero =>
    intro rem acc hlen hk
    cases rem with
    | nil => simp [kahnGo] at hk
    | cons r rest => simp at hlen
  | succ f ih =>
    intro rem acc hlen hk
    cases rem with
    | nil => simp [kahnGo] at hk
    | cons r rest =>
      rw [kahnGo] at hk
      cases hfind : (r :: rest).find?
          (fun v => !((r :: rest).any (fun u => decide ((u, v) ∈ g.edges)))) with
      | some v =>
        rw [hfind] at hk
        have hvmem : v ∈ r :: rest := List.mem_of_find?_eq_some hfind
        have hlen' : ((r :: rest).erase v).length ≤ f := by
          rw [List.length_erase_of_mem hvmem]
          simp only [List.length_cons] at hlen ⊢
          omega
        exact ih _ _ hlen' hk
      | none =>
        have hstuck : ∀ v ∈ r :: rest, ∃ u ∈ r :: rest, (u, v) ∈ g.edges := by
          intro v hv
          have := List.find?_eq_none.mp hfind v hv
          simp only [Bool.not_eq_eq_eq_not, Bool.not_true, Bool.not_eq_false,
            List.any_eq_true, decide_eq_true_eq] at this
          exact this
        exact hasCycle_of_preds g (r :: rest) (List.cons_ne_nil r rest) hstuck

/-- A successful topological model run certifies acyclicity. -/
lemma acyclic_of_topological_some {g : TGraph} (hval : ValidGraph g)
    {L : List Nat} (h : topological g = some L) : Acyclic g := by
  have hsound := kahnGo_sound g g.n (List.range g.n) [] L
    (by simp) (by simpa using List.nodup_range g.n) (by intro u v _ _ hv; cases hv) h
  have hmem : ∀ x, x < g.n → x ∈ L := by
    intro x hx
    exact hsound.1.mem_iff.mpr (by simpa using List.mem_range.mpr hx)
  have hR : ∀ u v, (u, v) ∈ g.edges → L.indexOf u < L.indexOf v := by
    intro u v he
    exact hsound.2 u v he (hmem u (hval _ he).1) (hmem v (hval _ he).2)
  rintro ⟨a, l, hch⟩
  exact chain_cycle_absurd hR l a hch

/-! ### Soundness of `find_cycle` -/

/-- Membership in `out_neighbors` is exactly the edge relation. -/
lemma mem_out_neighbors {g : TGraph} {node w : Nat} :
    w ∈ out_neighbors g node ↔ (node, w) ∈ g.edges := by
  constructor
  · intro hw
    rcases List.mem_filterMap.mp hw with ⟨e, he, hfe⟩
    by_cases h1 : e.1 = node
    · simp only [if_pos h1] at hfe
      have : (node, w) = e := by
        rcases e with ⟨a, b⟩
        simp only [Option.some.injEq] at hfe
        simp only at h1
        rw [h1, hfe]
      rw [this]; exact he
    · simp [if_neg h1] at hfe
  · intro he
    exact List.mem_filterMap.mpr ⟨(node, w), he, by simp⟩

/-- Appending an element related to the last element extends a chain. -/
lemma chain_snoc {R : Nat → Nat → Prop} :
    ∀ (l : List Nat) (a b : Nat), List.Chain R a l → R (l.getLastD a) b →
      List.Chain R a (l ++ [b]) := by
  intro l
  induction l with
  | nil =>
    intro a b _ hr
    exact List.Chain.cons hr List.Chain.nil
  | cons c l' ih =>
    intro a b hch hr
    rcases List.chain_cons.mp hch with ⟨hac, hch'⟩
    rw [List.getLastD_cons] at hr
    exact List.Chain.cons hac (ih c b hch' hr)

/-- The last element of a nonempty cons list determines `getLastD` of its
tail. -/
lemma getLastD_of_getLast?_cons {w nd : Nat} {t : List Nat}
    (h : (w :: t).getLast? = some nd) : t.getLastD w = nd := by
  cases t with
  | nil =>
    simp only [List.getLast?_singleton, Option.some.injEq] at h
    simpa using h
  | cons c t' =>
    rw [List.getLast?_cons_cons] at h
    rw [List.getLastD_cons]
    cases t' <;> simp_all [List.getLastD_eq_getLast?]

/-- The detection branch of the DFS neighbour loop really identifies a
cycle: the suffix of `stack_path` starting at the first occurrence of
the revisited node chains back to it. -/
lemma hasCycle_of_stack_hit {g : TGraph} {stack_path : List Nat} {nd w : Nat}
    (hlast : stack_path.getLast? = some nd)
    (hch : List.Chain' (fun u v => (u, v) ∈ g.edges) stack_path)
    (hw : w ∈ stack_path)
    (he : (nd, w) ∈ g.edges) : HasCycle g := by
  set idx := stack_path.indexOf w with hidx
  have hlt : idx < stack_path.length := List.indexOf_lt_length.mpr hw
  have hdrop : stack_path.drop idx = stack_path[idx] :: stack_path.drop (idx + 1) :=
    List.drop_eq_getElem_cons hlt
  have hgw : stack_path[idx] = w := List.getElem_indexOf hlt
  set t := stack_path.drop (idx + 1) with ht
  have hdrop' : stack_path.drop idx = w :: t := by rw [hdrop, hgw]
  have hch' : List.Chain' (fun u v => (u, v) ∈ g.edges) (w :: t) := by
    rw [← hdrop']
    exact hch.drop idx
  have hlast' : (w :: t).getLast? = some nd := by
    have hsplit : stack_path.take idx ++ stack_path.drop idx = stack_path :=
      List.take_append_drop idx stack_path
    have := congrArg List.getLast? hsplit
    rw [List.getLast?_append, hdrop'] at this
    have hne : (w :: t).getLast?.isSome := by
      rw [List.getLast?_isSome]
      exact List.cons_ne_nil w t
    rcases Option.isSome_iff_exists.mp hne with ⟨x, hx⟩
    rw [hx] at this ⊢
    simp only [Option.or_some] at this
    rw [this, hlast]
  have hchain : List.Chain (fun u v => (u, v) ∈ g.edges) w t := hch'
  have hwrap : List.Chain (fun u v => (u, v) ∈ g.edges) w (t ++ [w]) :=
    chain_snoc t w w hchain (by rw [getLastD_of_getLast?_cons hlast']; exact he)
  exact ⟨w, t, hwrap⟩

/-- Soundness of the DFS neighbour loop: a reported cycle means the
graph has a cycle. -/
lemma dfsLoop_some_hasCycle (g : TGraph) (fuel : Nat)
    (IH : ∀ (node : Nat) (visited in_stack stack_path : List Nat) (cyc : List String)
        (v' : List Nat),
      (stack_path = [] ∨ ∃ lst, stack_path.getLast? = some lst ∧ (lst, node) ∈ g.edges) →
      List.Chain' (fun u v => (u, v) ∈ g.edges) stack_path →
      (∀ x, x ∈ in_stack ↔ x ∈ stack_path) →
      dfs_find_cycle g fuel node visited in_stack stack_path = (some cyc, v') →
      HasCycle g) :
    ∀ (ws visited in_stack stack_path : List Nat) (nd : Nat) (cyc : List String)
        (v' : List Nat),
      stack_path.getLast? = some nd →
      (∀ w ∈ ws, (nd, w) ∈ g.edges) →
      List.Chain' (fun u v => (u, v) ∈ g.edges) stack_path →
      (∀ x, x ∈ in_stack ↔ x ∈ stack_path) →
      dfsNeighborLoop g (dfs_find_cycle g fuel) ws visited in_stack stack_path =
        (some cyc, v') →
      HasCycle g := by
  intro ws
  induction ws with
  | nil =>
    intro visited in_stack stack_path nd cyc v' _ _ _ _ h
    simp [dfsNeighborLoop] at h
  | cons w rest ihw =>
    intro visited in_stack stack_path nd cyc v' hlast hnbr hch hmem h
    rw [dfsNeighborLoop] at h
    by_cases hwv : w ∈ visited
    · rw [if_pos hwv] at h
      by_cases hws : w ∈ in_stack
      · exact hasCycle_of_stack_hit hlast hch ((hmem w).mp hws)
          (hnbr w (List.mem_cons_self w rest))
      · rw [if_neg hws] at h
        exact ihw visited in_stack stack_path nd cyc v' hlast
          (fun x hx => hnbr x (List.mem_cons_of_mem w hx)) hch hmem h
    · rw [if_neg hwv] at h
      cases hrec : dfs_find_cycle g fuel w visited in_stack stack_path with
      | mk o v'' =>
        rw [hrec] at h
        cases o with
        | some c =>
          exact IH w visited in_stack stack_path c v''
            (Or.inr ⟨nd, hlast, hnbr w (List.mem_cons_self w rest)⟩) hch hmem hrec
        | none =>
          exact ihw v'' in_stack stack_path nd cyc v' hlast
            (fun x hx => hnbr x (List.mem_cons_of_mem w hx)) hch hmem h

/-- Soundness of `dfs_find_cycle`: a reported cycle means the graph has
a cycle. -/
lemma dfs_some_hasCycle (g : TGraph) :
    ∀ (fuel node : Nat) (visited in_stack stack_path : List Nat) (cyc : List String)
        (v' : List Nat),
      (stack_path = [] ∨ ∃ lst, stack_path.getLast? = some lst ∧ (lst, node) ∈ g.edges) →
      List.Chain' (fun u v => (u, v) ∈ g.edges) stack_path →
      (∀ x, x ∈ in_stack ↔ x ∈ stack_path) →
      dfs_find_cycle g fuel node visited in_stack stack_path = (some cyc, v') →
      HasCycle g := by
  intro fuel
  induction fuel with
  | zero =>
    intro node visited in_stack stack_path cyc v' _ _ _ h
    simp [dfs_find_cycle] at h
  | succ f ih =>
    intro node visited in_stack stack_path cyc v' hlink hch hmem h
    rw [dfs_find_cycle] at h
    have hch' : List.Chain' (fun u v => (u, v) ∈ g.edges) (stack_path ++ [node]) := by
      rw [List.chain'_append]
      refine ⟨hch, List.chain'_singleton node, ?_⟩
      intro x hx y hy
      simp only [List.head?_cons, Option.mem_def, Option.some.injEq] at hy
      rcases hlink with hemp | ⟨lst, hlst, hel⟩
      · rw [hemp] at hx; simp at hx
      · rw [hlst] at hx
        simp only [Option.mem_def, Option.some.injEq] at hx
        rw [← hx, ← hy]
        exact hel
    exact dfsLoop_some_hasCycle g f ih (out_neighbors g node) (node :: visited)
      (node :: in_stack) (stack_path ++ [node]) node cyc v'
      (List.getLast?_concat stack_path)
      (fun w hw => mem_out_neighbors.mp hw)
      hch'
      (by intro x; simp [hmem x, or_comm]) h

/-- Soundness of the start-node loop of `find_cycle`. -/
lemma findCycleGo_some_hasCycle (g : TGraph) :
    ∀ (starts visited : List Nat) (cyc : List String),
      findCycleGo g starts visited = some cyc → HasCycle g := by
  intro starts
  induction starts with
  | nil => intro visited cyc h; simp [findCycleGo] at h
  | cons s rest ih =>
    intro visited cyc h
    rw [findCycleGo] at h
    by_cases hs : s ∈ visited
    · rw [if_pos hs] at h
      exact ih visited cyc h
    · rw [if_neg hs] at h
      cases hrec : dfs_find_cycle g g.n s visited [] [] with
      | mk o v' =>
        rw [hrec] at h
        cases o with
        | some c =>
          exact dfs_some_hasCycle g g.n s visited [] [] c v' (Or.inl rfl)
            List.chain'_nil (by intro x; rfl) hrec
        | none => exact ih v' cyc h

/-- `find_cycle` soundness: a returned witness implies a real cycle. -/
lemma find_cycle_some_hasCycle {g : TGraph} {cyc : List String}
    (h : find_cycle g = some cyc) : HasCycle g :=
  findCycleGo_some_hasCycle g (List.range g.n) [] cyc h

/-! ### Completeness of `find_cycle` -/

/-- The neighbour loop preserves the completeness invariant and finishes
every listed neighbour when it reports no cycle. -/
lemma dfsLoop_none_inv (g : TGraph) (hval : ValidGraph g) (fuel : Nat)
    (IH : ∀ (node : Nat) (visited in_stack stack_path v' : List Nat),
      g.n ≤ fuel + visited.length →
      node < g.n → node ∉ visited →
      visited.Nodup → (∀ x ∈ visited, x < g.n) →
      (∀ x ∈ stack_path, x ∈ visited) →
      (∀ x, x ∈ in_stack ↔ x ∈ stack_path) →
      DfsInv g visited stack_path →
      dfs_find_cycle g fuel node visited in_stack stack_path = (none, v') →
      visited.IsSuffix v' ∧ node ∈ v' ∧ v'.Nodup ∧ (∀ x ∈ v', x < g.n) ∧
        DfsInv g v' stack_path) :
    ∀ (ws : List Nat) (visited in_stack stack_path v' : List Nat) (nd : Nat),
      g.n ≤ fuel + visited.length →
      (∀ w ∈ ws, (nd, w) ∈ g.edges) →
      visited.Nodup → (∀ x ∈ visited, x < g.n) →
      (∀ x ∈ stack_path, x ∈ visited) →
      (∀ x, x ∈ in_stack ↔ x ∈ stack_path) →
      DfsInv g visited stack_path →
      dfsNeighborLoop g (dfs_find_cycle g fuel) ws visited in_stack stack_path =
        (none, v') →
      visited.IsSuffix v' ∧ v'.Nodup ∧ (∀ x ∈ v', x < g.n) ∧
        DfsInv g v' stack_path ∧ (∀ w ∈ ws, w ∈ v' ∧ w ∉ stack_path) := by
  intro ws
  induction ws with
  | nil =>
    intro visited in_stack stack_path v' nd _ _ hnd hbnd _ _ hinv h
    simp only [dfsNeighborLoop, Prod.mk.injEq] at h
    rw [← h.2]
    exact ⟨List.suffix_refl visited, hnd, hbnd, hinv, by intro w hw; cases hw⟩
  | cons w rest ihw =>
    intro visited in_stack stack_path v' nd hfuel hnbr hnd hbnd hsub hmem hinv h
    rw [dfsNeighborLoop] at h
    by_cases hwv : w ∈ visited
    · rw [if_pos hwv] at h
      by_cases hws : w ∈ in_stack
      · rw [if_pos hws] at h
        simp at h
      · rw [if_neg hws] at h
        obtain ⟨hsuf, hnd', hbnd', hinv', hrest⟩ :=
          ihw visited in_stack stack_path v' nd hfuel
            (fun x hx => hnbr x (List.mem_cons_of_mem w hx)) hnd hbnd hsub hmem hinv h
        refine ⟨hsuf, hnd', hbnd', hinv', ?_⟩
        intro x hx
        rcases List.mem_cons.mp hx with heq | hx'
        · subst heq
          exact ⟨hsuf.subset hwv, fun hsp => hws ((hmem x).mpr hsp)⟩
        · exact hrest x hx'
    · rw [if_neg hwv] at h
      cases hrec : dfs_find_cycle g fuel w visited in_stack stack_path with
      | mk o v'' =>
        rw [hrec] at h
        cases o with
        | some c => simp at h
        | none =>
          have hwlt : w < g.n := (hval _ (hnbr w (List.mem_cons_self w rest))).2
          obtain ⟨hsuf1, hwin, hnd1, hbnd1, hinv1⟩ :=
            IH w visited in_stack stack_path v'' hfuel hwlt hwv hnd hbnd hsub hmem hinv hrec
          have hfuel1 : g.n ≤ fuel + v''.length :=
            le_trans hfuel (by have := hsuf1.length_le; omega)
          obtain ⟨hsuf2, hnd2, hbnd2, hinv2, hrest2⟩ :=
            ihw v'' in_stack stack_path v' nd hfuel1
              (fun x hx => hnbr x (List.mem_cons_of_mem w hx)) hnd1 hbnd1
              (fun x hx => hsuf1.subset (hsub x hx)) hmem hinv1 h
          refine ⟨hsuf1.trans hsuf2, hnd2, hbnd2, hinv2, ?_⟩
          intro x hx
          rcases List.mem_cons.mp hx with heq | hx'
          · subst heq
            exact ⟨hsuf2.subset hwin, fun hsp => hwv (hsub x hsp)⟩
          · exact hrest2 x hx'

/-- `dfs_find_cycle` preserves the completeness invariant: with
sufficient fuel and a clean return, the entered node is finished and the
invariant transfers to the caller's stack. -/
lemma dfs_none_inv (g : TGraph) (hval : ValidGraph g) :
    ∀ (fuel : Nat) (node : Nat) (visited in_stack stack_path v' : List Nat),
      g.n ≤ fuel + visited.length →
      node < g.n → node ∉ visited →
      visited.Nodup → (∀ x ∈ visited, x < g.n) →
      (∀ x ∈ stack_path, x ∈ visited) →
      (∀ x, x ∈ in_stack ↔ x ∈ stack_path) →
      DfsInv g visited stack_path →
      dfs_find_cycle g fuel node visited in_stack stack_path = (none, v') →
      visited.IsSuffix v' ∧ node ∈ v' ∧ v'.Nodup ∧ (∀ x ∈ v', x < g.n) ∧
        DfsInv g v' stack_path := by
  intro fuel
  induction fuel with
  | zero =>
    intro node visited in_stack stack_path v' hfuel hlt hnv hnd hbnd _ _ _ _
    exact absurd (mem_of_nodup_bounded_length hnd hbnd (by omega) node hlt) hnv
  | succ f ih =>
    intro node visited in_stack stack_path v' hfuel hlt hnv hnd hbnd hsub hmem hinv h
    rw [dfs_find_cycle] at h
    have hnodesp : node ∉ stack_path := fun hx => hnv (hsub node hx)
    have hinv' : DfsInv g (node :: visited) (stack_path ++ [node]) := by
      constructor
      · intro x hx hxsp y hy
        have hxne : x ≠ node := by
          intro heq
          exact hxsp (heq ▸ List.mem_append_right _ (List.mem_singleton.mpr rfl))
        have hxv : x ∈ visited := (List.mem_cons.mp hx).resolve_left hxne
        have hxsp' : x ∉ stack_path := fun hc => hxsp (List.mem_append_left _ hc)
        obtain ⟨hyv, hysp⟩ := hinv.1 x hxv hxsp' y hy
        have hyne : y ≠ node := fun heq => hnv (heq ▸ hyv)
        refine ⟨List.mem_cons_of_mem _ hyv, ?_⟩
        intro hc
        rcases List.mem_append.mp hc with h1 | h2
        · exact hysp h1
        · exact hyne (List.mem_singleton.mp h2)
      · intro a l hch hall
        refine hinv.2 a l hch ?_
        intro x hx
        obtain ⟨hxv, hxsp⟩ := hall x hx
        have hxne : x ≠ node := by
          intro heq
          exact hxsp (heq ▸ List.mem_append_right _ (List.mem_singleton.mpr rfl))
        exact ⟨(List.mem_cons.mp hxv).resolve_left hxne,
          fun hc => hxsp (List.mem_append_left _ hc)⟩
    obtain ⟨hsuf, hnd', hbnd', hinvL, hproc⟩ :=
      dfsLoop_none_inv g hval f ih (out_neighbors g node) (node :: visited)
        (node :: in_stack) (stack_path ++ [node]) v' node
        (by simp only [List.length_cons]; omega)
        (fun w hw => mem_out_neighbors.mp hw)
        (List.nodup_cons.mpr ⟨hnv, hnd⟩)
        (by
          intro x hx
          rcases List.mem_cons.mp hx with heq | hx'
          · rw [heq]; exact hlt
          · exact hbnd x hx')
        (by
          intro x hx
          rcases List.mem_append.mp hx with h1 | h2
          · exact List.mem_cons_of_mem _ (hsub x h1)
          · rw [List.mem_singleton.mp h2]; exact List.mem_cons_self node visited)
        (by intro x; simp [hmem x, or_comm])
        hinv' h
    have hsuf0 : visited.IsSuffix v' := (List.suffix_cons node visited).trans hsuf
    have hnodein : node ∈ v' := hsuf.subset (List.mem_cons_self node visited)
    refine ⟨hsuf0, hnodein, hnd', hbnd', ?_, ?_⟩
    · -- (i) of the invariant for the caller's stack
      intro x hxv hxsp y hy
      by_cases hxn : x = node
      · subst hxn
        obtain ⟨hyv, hysp'⟩ := hproc y (mem_out_neighbors.mpr hy)
        exact ⟨hyv, fun hc => hysp' (List.mem_append_left _ hc)⟩
      · have hxsp' : x ∉ stack_path ++ [node] := by
          intro hc
          rcases List.mem_append.mp hc with h1 | h2
          · exact hxsp h1
          · exact hxn (List.mem_singleton.mp h2)
        obtain ⟨hyv, hysp'⟩ := hinvL.1 x hxv hxsp' y hy
        exact ⟨hyv, fun hc => hysp' (List.mem_append_left _ hc)⟩
    · -- (ii) of the invariant for the caller's stack
      intro a l hch hall
      by_cases hnin : node ∈ a :: l
      · obtain ⟨y, hy, hye⟩ := cycle_pred hch node hnin
        by_cases hyn : y = node
        · rw [hyn] at hye
          have := (hproc node (mem_out_neighbors.mpr hye)).2
          exact this (List.mem_append_right _ (List.mem_singleton.mpr rfl))
        · obtain ⟨hyv, hysp⟩ := hall y hy
          have hysp' : y ∉ stack_path ++ [node] := by
            intro hc
            rcases List.mem_append.mp hc with h1 | h2
            · exact hysp h1
            · exact hyn (List.mem_singleton.mp h2)
          have := (hinvL.1 y hyv hysp' node hye).2
          exact this (List.mem_append_right _ (List.mem_singleton.mpr rfl))
      · refine hinvL.2 a l hch ?_
        intro x hx
        obtain ⟨hxv, hxsp⟩ := hall x hx
        have hxn : x ≠ node := fun heq => hnin (heq ▸ hx)
        refine ⟨hxv, ?_⟩
        intro hc
        rcases List.mem_append.mp hc with h1 | h2
        · exact hxsp h1
        · exact hxn (List.mem_singleton.mp h2)

/-- The start-node loop of `find_cycle` visits every start and keeps the
invariant (with an empty stack) when it reports no cycle. -/
lemma findCycleGo_none_inv (g : TGraph) (hval : ValidGraph g) :
    ∀ (starts visited : List Nat),
      visited.Nodup → (∀ x ∈ visited, x < g.n) → (∀ s ∈ starts, s < g.n) →
      DfsInv g visited [] →
      findCycleGo g starts visited = none →
      ∃ v', visited.IsSuffix v' ∧ v'.Nodup ∧ (∀ x ∈ v', x < g.n) ∧
        DfsInv g v' [] ∧ (∀ s ∈ starts, s ∈ v') := by
  intro starts
  induction starts with
  | nil =>
    intro visited hnd hbnd _ hinv _
    exact ⟨visited, List.suffix_refl visited, hnd, hbnd, hinv, by intro s hs; cases hs⟩
  | cons s rest ih =>
    intro visited hnd hbnd hstarts hinv h
    rw [findCycleGo] at h
    by_cases hs : s ∈ visited
    · rw [if_pos hs] at h
      obtain ⟨v', hsuf, hnd', hbnd', hinv', hall⟩ :=
        ih visited hnd hbnd (fun x hx => hstarts x (List.mem_cons_of_mem s hx)) hinv h
      refine ⟨v', hsuf, hnd', hbnd', hinv', ?_⟩
      intro x hx
      rcases List.mem_cons.mp hx with heq | hx'
      · rw [heq]; exact hsuf.subset hs
      · exact hall x hx'
    · rw [if_neg hs] at h
      cases hrec : dfs_find_cycle g g.n s visited [] [] with
      | mk o v'' =>
        rw [hrec] at h
        cases o with
        | some c => cases h
        | none =>
          obtain ⟨hsuf1, hsin, hnd1, hbnd1, hinv1⟩ :=
            dfs_none_inv g hval g.n s visited [] [] v'' (by omega)
              (hstarts s (List.mem_cons_self s rest)) hs hnd hbnd
              (by intro x hx; cases hx) (by intro x; rfl) hinv hrec
          obtain ⟨v', hsuf2, hnd2, hbnd2, hinv2, hall2⟩ :=
            ih v'' hnd1 hbnd1 (fun x hx => hstarts x (List.mem_cons_of_mem s hx)) hinv1 h
          refine ⟨v', hsuf1.trans hsuf2, hnd2, hbnd2, hinv2, ?_⟩
          intro x hx
          rcases List.mem_cons.mp hx with heq | hx'
          · rw [heq]; exact hsuf2.subset hsin
          · exact hall2 x hx'

/-- `find_cycle` completeness: a `none` answer certifies acyclicity. -/
lemma find_cycle_none_acyclic (g : TGraph) (hval : ValidGraph g)
    (h : find_cycle g = none) : Acyclic g := by
  have hinv0 : DfsInv g [] [] := by
    constructor
    · intro x hx; cases hx
    · intro a l _ hall
      exact absurd (hall a (List.mem_cons_self a l)).1 (List.not_mem_nil a)
  obtain ⟨v', _, _, _, hinv, hall⟩ :=
    findCycleGo_none_inv g hval (List.range g.n) [] List.nodup_nil
      (by intro x hx; cases hx) (fun s hs => List.mem_range.mp hs) hinv0 h
  rintro ⟨a, l, hch⟩
  refine hinv.2 a l hch ?_
  intro x hx
  obtain ⟨y, _, hye⟩ := cycle_pred hch x hx
  have hxlt : x < g.n := (hval _ hye).2
  exact ⟨hall x (List.mem_range.mpr hxlt), List.not_mem_nil x⟩

/-! ### Claim C1 and claim C6 -/

/-- C1: for every acyclic test graph, the topological traversal succeeds
and returns a permutation of all of the graph's nodes in which, for every
edge u → v, u appears before v in the returned ordering. -/
theorem topological_acyclic_correct (g : TGraph) (hval : ValidGraph g)
    (hac : Acyclic g) :
    ∃ L, topological g = some L ∧ L.Perm (List.range g.n) ∧
      ∀ e ∈ g.edges, L.indexOf e.1 < L.indexOf e.2 := by
  cases h : topological g with
  | none => exact absurd (kahnGo_none g g.n (List.range g.n) [] (by simp) h) hac
  | some L =>
    have hsound := kahnGo_sound g g.n (List.range g.n) [] L (by simp)
      (by simpa using List.nodup_range g.n) (by intro u v _ _ hv; cases hv) h
    have hmem : ∀ x, x < g.n → x ∈ L := fun x hx =>
      hsound.1.mem_iff.mpr (by simpa using List.mem_range.mpr hx)
    refine ⟨L, rfl, by simpa using hsound.1, ?_⟩
    intro e he
    have he' : (e.1, e.2) ∈ g.edges := by rwa [Prod.mk.eta]
    exact hsound.2 e.1 e.2 he' (hmem _ (hval e he).1) (hmem _ (hval e he).2)

/-- Witness for C1 on the concrete graph A → B. -/
theorem topological_acyclic_correct_witness :
    (ValidGraph gWitAcyclic ∧ Acyclic gWitAcyclic) ∧
      ∃ L, topological gWitAcyclic = some L ∧
        L.Perm (List.range gWitAcyclic.n) ∧
        ∀ e ∈ gWitAcyclic.edges, L.indexOf e.1 < L.indexOf e.2 := by
  have hval : ValidGraph gWitAcyclic := by decide
  have hac : Acyclic gWitAcyclic :=
    find_cycle_none_acyclic gWitAcyclic hval (by decide)
  exact ⟨⟨hval, hac⟩, topological_acyclic_correct gWitAcyclic hval hac⟩

/-- C6: the topological traversal returns an error exactly when
`find_cycle` returns a cycle witness — the two cycle-detection
implementations agree on which graphs are cyclic. -/
theorem topological_err_iff_find_cycle (g : TGraph) (hval : ValidGraph g) :
    topological g = none ↔ (find_cycle g).isSome := by
  constructor
  · intro h
    have hcyc : HasCycle g := kahnGo_none g g.n (List.range g.n) [] (by simp) h
    cases hfc : find_cycle g with
    | some c => rfl
    | none => exact absurd hcyc (find_cycle_none_acyclic g hval hfc)
  · intro h
    rcases Option.isSome_iff_exists.mp h with ⟨c, hc⟩
    have hcyc : HasCycle g := find_cycle_some_hasCycle hc
    cases htop : topological g with
    | none => rfl
    | some L => exact absurd hcyc (acyclic_of_topological_some hval htop)

/-- Witness for C6 on the concrete cyclic graph A ⇄ B. -/
theorem topological_err_iff_find_cycle_witness :
    ValidGraph gWitCyclic ∧
      (topological gWitCyclic = none ↔ (find_cycle gWitCyclic).isSome) :=
  ⟨by decide, topological_err_iff_find_cycle gWitCyclic (by decide)⟩

/-! ### Claim C7: step categorisation -/

lemma categorizeGo_spec :
    ∀ (steps : List IrStep) (pre act asrt : List StepEntry) (c : StepCategory),
      categorizeGo steps pre act asrt c =
        (pre ++ catFilter .Precondition (assignCats c steps),
         act ++ catFilter .Action (assignCats c steps),
         asrt ++ catFilter .Assertion (assignCats c steps)) := by
  intro steps
  induction steps with
  | nil => intro pre act asrt c; simp [categorizeGo, assignCats, catFilter]
  | cons s rest ih =>
    intro pre act asrt c
    cases hst : s.step_type <;>
      cases c <;>
        simp [categorizeGo, hst, ih, assignCats, effCat, catFilter, List.filter_cons]

/-- C7: the compiler's categorisation walk sends every step of a node to
the list given by its effective category — the category set by the last
`given`/`when`/`then` at or before it, with the walk's current category
initialised to precondition (so `and`/`but` continue the current list,
and a node beginning with `and`/`but` contributes to preconditions). -/
theorem categorize_steps_spec (steps : List IrStep) :
    categorize_steps steps =
      (catFilter .Precondition (assignCats .Precondition steps),
       catFilter .Action (assignCats .Precondition steps),
       catFilter .Assertion (assignCats .Precondition steps)) := by
  simpa [categorize_steps] using categorizeGo_spec steps [] [] [] .Precondition

/-! ### Claim C8 and claim C9: plan filtering -/

lemma mapIdx_order_strip :
    ∀ (l : List PlanStep) (k : Nat),
      (l.mapIdx (fun i s => { s with order := i + k })).map stripOrder =
        l.map stripOrder := by
  intro l
  induction l with
  | nil => intro k; rfl
  | cons a l ih =>
    intro k
    rw [List.mapIdx_cons]
    have harg : (fun (i : Nat) (s : PlanStep) => { s with order := i + 1 + k }) =
        (fun (i : Nat) (s : PlanStep) => { s with order := i + (k + 1) }) := by
      funext i s
      have hik : i + 1 + k = i + (k + 1) := by omega
      rw [hik]
    simp only [List.map_cons, stripOrder]
    rw [harg, ih (k + 1)]

lemma mapIdx_order_range :
    ∀ (l : List PlanStep) (k : Nat),
      (l.mapIdx (fun i s => { s with order := i + k })).map PlanStep.order =
        List.range' k l.length := by
  intro l
  induction l with
  | nil => intro k; rfl
  | cons a l ih =>
    intro k
    rw [List.mapIdx_cons]
    have harg : (fun (i : Nat) (s : PlanStep) => { s with order := i + 1 + k }) =
        (fun (i : Nat) (s : PlanStep) => { s with order := i + (k + 1) }) := by
      funext i s
      have hik : i + 1 + k = i + (k + 1) := by omega
      rw [hik]
    simp only [List.map_cons, List.length_cons]
    rw [harg, ih (k + 1)]
    simp [List.range'_succ]

lemma mapIdx_order_filter_strip (q : PlanStep → Bool)
    (hq : ∀ s j, q { s with order := j } = q s) :
    ∀ (l : List PlanStep) (k : Nat),
      ((l.mapIdx (fun i s => { s with order := i + k })).filter q).map stripOrder =
        (l.filter q).map stripOrder := by
  intro l
  induction l with
  | nil => intro k; rfl
  | cons a l ih =>
    intro k
    rw [List.mapIdx_cons]
    have harg : (fun (i : Nat) (s : PlanStep) => { s with order := i + 1 + k }) =
        (fun (i : Nat) (s : PlanStep) => { s with order := i + (k + 1) }) := by
      funext i s
      have hik : i + 1 + k = i + (k + 1) := by omega
      rw [hik]
    rw [harg]
    cases hqa : q a with
    | true =>
      have hqa' : q { a with order := k } = true := by rw [hq a k]; exact hqa
      simp [List.filter_cons, hqa, hqa', ih (k + 1), stripOrder]
    | false =>
      have hqa' : q { a with order := k } = false := by rw [hq a k]; exact hqa
      simp [List.filter_cons, hqa, hqa', ih (k + 1)]

/-- C8: filtering a plan keeps exactly the steps whose tag list matches
the predicate, in their original order with every other field unchanged,
renumbers the survivors consecutively from 1, sets the metadata node
total to the survivor count, and leaves the plan name, traversal name
and edge total unchanged. -/
theorem filter_plan_frame (p : TestPlan) (φ : TagPredicate) :
    (filter_plan p φ).steps.map stripOrder =
        (p.steps.filter (fun s => φ.matches s.tags)).map stripOrder ∧
    (filter_plan p φ).steps.map PlanStep.order =
        List.range' 1 (p.steps.filter (fun s => φ.matches s.tags)).length ∧
    (filter_plan p φ).plan.nodes_total =
        (p.steps.filter (fun s => φ.matches s.tags)).length ∧
    (filter_plan p φ).plan.name = p.plan.name ∧
    (filter_plan p φ).plan.traversal = p.plan.traversal ∧
    (filter_plan p φ).plan.edges_total = p.plan.edges_total := by
  refine ⟨?_, ?_, ?_, rfl, rfl, rfl⟩
  · exact mapIdx_order_strip (p.steps.filter (fun s => φ.matches s.tags)) 1
  · simpa using mapIdx_order_range (p.steps.filter (fun s => φ.matches s.tags)) 1
  · simp [filter_plan]

lemma matches_and_pair (φ ψ : TagPredicate) (tags : List String) :
    (TagPredicate.And [φ, ψ]).matches tags = (φ.matches tags && ψ.matches tags) := by
  simp [TagPredicate.matches, matchesAll]

/-- C9: filtering by φ and then by ψ yields the same steps, in the same
order, as filtering once by And [φ, ψ], ignoring the renumbered order
fields. -/
theorem filter_plan_compose (p : TestPlan) (φ ψ : TagPredicate) :
    (filter_plan (filter_plan p φ) ψ).steps.map stripOrder =
      (filter_plan p (TagPredicate.And [φ, ψ])).steps.map stripOrder := by
  have hq : ∀ (s : PlanStep) (j : Nat),
      (fun st => ψ.matches st.tags) { s with order := j } =
        (fun st => ψ.matches st.tags) s := by
    intro s j; rfl
  calc
    (filter_plan (filter_plan p φ) ψ).steps.map stripOrder
        = ((((p.steps.filter (fun s => φ.matches s.tags)).mapIdx
              (fun i s => { s with order := i + 1 })).filter
                (fun s => ψ.matches s.tags)).map stripOrder) := by
          exact mapIdx_order_strip _ 1
    _ = (((p.steps.filter (fun s => φ.matches s.tags)).filter
            (fun s => ψ.matches s.tags)).map stripOrder) := by
          exact mapIdx_order_filter_strip _ hq _ 1
    _ = ((p.steps.filter (fun s => (TagPredicate.And [φ, ψ]).matches s.tags)).map
            stripOrder) := by
          rw [List.filter_filter]
          congr 1
          apply List.filter_congr
          intro s _
          rw [matches_and_pair]
          exact Bool.and_comm _ _
    _ = (filter_plan p (TagPredicate.And [φ, ψ])).steps.map stripOrder := by
          exact (mapIdx_order_strip _ 1).symm

/-! ### Claim C4: parameter binding provenance -/

/-- `resolve_parameters` characterised: one binding per parameter
placeholder in order; a binding's value is the first matching entry of
the data list and its source is always `EdgeData ""` on a hit and
`Unresolved` on a miss. -/
lemma resolve_parameters_spec (fragments : List StepFragment)
    (data : List (String × String)) :
    ((resolve_parameters fragments data).map (fun b => b.name) =
        fragmentParams fragments) ∧
    ∀ b ∈ resolve_parameters fragments data,
      (∃ kv, data.find? (fun p => p.1 = b.name) = some kv ∧
        b.value = some kv.2 ∧ b.source = BindingSource.EdgeData "") ∨
      (data.find? (fun p => p.1 = b.name) = none ∧
        b.value = none ∧ b.source = BindingSource.Unresolved) := by
  induction fragments with
  | nil => exact ⟨rfl, by intro b hb; cases hb⟩
  | cons f rest ih =>
    cases f with
    | Text t =>
      refine ⟨?_, ?_⟩
      · simpa [resolve_parameters, fragmentParams, List.filterMap_cons] using ih.1
      · intro b hb
        apply ih.2
        simpa [resolve_parameters, List.filterMap_cons] using hb
    | Parameter name =>
      cases hfind : data.find? (fun p => p.1 = name) with
      | some kv =>
        refine ⟨?_, ?_⟩
        · simpa [resolve_parameters, fragmentParams, List.filterMap_cons, hfind] using ih.1
        · intro b hb
          simp only [resolve_parameters, List.filterMap_cons, hfind] at hb
          rcases List.mem_cons.mp hb with heq | hb'
          · subst heq
            exact Or.inl ⟨kv, hfind, rfl, rfl⟩
          · exact ih.2 b hb'
      | none =>
        refine ⟨?_, ?_⟩
        · simpa [resolve_parameters, fragmentParams, List.filterMap_cons, hfind] using ih.1
        · intro b hb
          simp only [resolve_parameters, List.filterMap_cons, hfind] at hb
          rcases List.mem_cons.mp hb with heq | hb'
          · subst heq
            exact Or.inr ⟨hfind, rfl, rfl⟩
          · exact ih.2 b hb'

/-- C4 counterexample: for the lowered step `a user from fixture F` with
parameter placeholder `role`, whose merged value comes from fixture `F`,
the binding's provenance is `EdgeData ""` — not the fixture's name as
the claim requires (nor any producing edge's node name). -/
theorem lower_step_fixture_provenance_cex :
    (lower_step_data c4Step c4Fixtures).2 =
      [{ name := "role", value := some "admin",
         source := BindingSource.EdgeData "" }] ∧
    BindingSource.EdgeData "" ≠ BindingSource.Fixture "F" := by
  constructor
  · decide
  · decide

/-- C4 amended: for every step lowered to IR, each parameter placeholder
in the step's fragment list is resolved against the single merged data
list (explicit data-block fields, then prose-extracted pairs, then
fixture fields); a found name binds the first matching entry's value and
carries the edge-data provenance tag with an empty producer name, and a
missing name is recorded as unresolved with no value — fixture names and
edge producer names never appear in the provenance. -/
theorem lower_step_params_amended (s : AstStep) (fixtures : List IrFixture) :
    ((lower_step_data s fixtures).2.map (fun b => b.name) =
        fragmentParams s.fragments) ∧
    ∀ b ∈ (lower_step_data s fixtures).2,
      (∃ kv, (lower_step_data s fixtures).1.find? (fun p => p.1 = b.name) = some kv ∧
        b.value = some kv.2 ∧ b.source = BindingSource.EdgeData "") ∨
      ((lower_step_data s fixtures).1.find? (fun p => p.1 = b.name) = none ∧
        b.value = none ∧ b.source = BindingSource.Unresolved) := by
  have hkey : (lower_step_data s fixtures).2 =
      resolve_parameters s.fragments ((lower_step_data s fixtures).1) := rfl
  rw [hkey]
  exact resolve_parameters_spec s.fragments ((lower_step_data s fixtures).1)

/-! ### Executor loop lemmas (src/runner/executor.rs `execute_steps`) -/

lemma executeStepsTraceGo_length (bk : TestBackend) (cfg : RunConfig)
    (h : GeneratedHarness) :
    ∀ (steps : List PlanStep) (stop : Bool) (failed : List String) (ctx : RunContext),
      (executeStepsTraceGo bk cfg h steps stop failed ctx).length = steps.length := by
  intro steps
  induction steps with
  | nil => intro stop failed ctx; rfl
  | cons s rest ih =>
    intro stop failed ctx
    cases stop with
    | true => simp [executeStepsTraceGo, ih]
    | false =>
      by_cases hdep : has_failed_dependency s failed
      · simp [executeStepsTraceGo, hdep, ih]
      · simp [executeStepsTraceGo, hdep, ih]

lemma executeStepsGo_eq_trace (bk : TestBackend) (cfg : RunConfig)
    (h : GeneratedHarness) :
    ∀ (steps : List PlanStep) (stop : Bool) (failed : List String) (ctx : RunContext),
      executeStepsGo bk cfg h steps stop failed ctx =
        (executeStepsTraceGo bk cfg h steps stop failed ctx).map (fun e => e.1) := by
  intro steps
  induction steps with
  | nil => intro stop failed ctx; rfl
  | cons s rest ih =>
    intro stop failed ctx
    cases stop with
    | true => simp [executeStepsGo, executeStepsTraceGo, ih]
    | false =>
      by_cases hdep : has_failed_dependency s failed
      · simp [executeStepsGo, executeStepsTraceGo, hdep, ih]
      · simp [executeStepsGo, executeStepsTraceGo, hdep, ih]

lemma executeStepsGo_getD_eq_trace (bk : TestBackend) (cfg : RunConfig)
    (h : GeneratedHarness) (steps : List PlanStep) (stop : Bool)
    (failed : List String) (ctx : RunContext) (k : Nat) (hk : k < steps.length)
    (dR : StepResult) (dT : StepResult × Bool × RunContext) :
    (executeStepsGo bk cfg h steps stop failed ctx).getD k dR =
      ((executeStepsTraceGo bk cfg h steps stop failed ctx).getD k dT).1 := by
  have hlen : (executeStepsTraceGo bk cfg h steps stop failed ctx).length = steps.length :=
    executeStepsTraceGo_length bk cfg h steps stop failed ctx
  have hk1 : k < (executeStepsTraceGo bk cfg h steps stop failed ctx).length := by
    rw [hlen]; exact hk
  have hk2 : k < (executeStepsGo bk cfg h steps stop failed ctx).length := by
    rw [executeStepsGo_eq_trace, List.length_map, hlen]; exact hk
  rw [List.getD_eq_getElem _ _ hk2, List.getD_eq_getElem _ _ hk1]
  simp only [executeStepsGo_eq_trace bk cfg h steps stop failed ctx]
  rw [List.getElem_map]

/-- Once the stop flag is set, every remaining step is recorded skipped,
uninvoked, with the context unchanged. -/
lemma traceGo_stop_skips (bk : TestBackend) (cfg : RunConfig) (h : GeneratedHarness) :
    ∀ (steps : List PlanStep) (failed : List String) (ctx : RunContext)
      (j : Nat), j < steps.length →
      ∀ (dS : PlanStep) (dT : StepResult × Bool × RunContext),
      (executeStepsTraceGo bk cfg h steps true failed ctx).getD j dT =
        (StepResult.skipped ((steps.getD j dS).node), false, ctx) := by
  intro steps
  induction steps with
  | nil => intro failed ctx j hj; simp at hj
  | cons s rest ih =>
    intro failed ctx j hj dS dT
    simp only [executeStepsTraceGo, if_pos]
    cases j with
    | zero => simp
    | succ j' =>
      simp only [List.getD_cons_succ]
      exact ih failed ctx j' (by simpa using hj) dS dT

/-- A step one of whose dependencies is in the failed set is recorded
skipped and uninvoked — whatever happens in between, since the failed
set only grows. -/
lemma traceGo_skip_of_failed_dep (bk : TestBackend) (cfg : RunConfig)
    (h : GeneratedHarness) (N : String) :
    ∀ (steps : List PlanStep) (stop : Bool) (failed : List String) (ctx : RunContext)
      (j : Nat), j < steps.length →
      ∀ (dS : PlanStep) (dT : StepResult × Bool × RunContext),
      N ∈ failed → N ∈ (steps.getD j dS).depends_on →
      ((executeStepsTraceGo bk cfg h steps stop failed ctx).getD j dT).1 =
        StepResult.skipped ((steps.getD j dS).node) ∧
      ((executeStepsTraceGo bk cfg h steps stop failed ctx).getD j dT).2.1 = false := by
  intro steps
  induction steps with
  | nil => intro stop failed ctx j hj; simp at hj
  | cons s rest ih =>
    intro stop failed ctx j hj dS dT hNf hNdep
    cases stop with
    | true =>
      rw [traceGo_stop_skips bk cfg h (s :: rest) failed ctx j hj dS dT]
      exact ⟨rfl, rfl⟩
    | false =>
      by_cases hdep : has_failed_dependency s failed
      · simp only [executeStepsTraceGo, hdep, if_true, if_false, Bool.false_eq_true]
        cases j with
        | zero => simp
        | succ j' =>
          simp only [List.getD_cons_succ]
          exact ih false failed ctx j' (by simpa using hj) dS dT hNf
            (by simpa using hNdep)
      · cases j with
        | zero =>
          exfalso
          apply hdep
          simp only [List.getD_cons_zero] at hNdep
          simp only [has_failed_dependency, List.any_eq_true]
          exact ⟨N, hNdep, List.elem_iff.mpr hNf⟩
        | succ j' =>
          simp only [executeStepsTraceGo, hdep, if_false, Bool.false_eq_true,
            List.getD_cons_succ]
          set result := (execute_step bk s h ctx).1 with hres
          by_cases hcond : result.status = .Failed ∨ result.status = .Error
          · simp only [if_pos hcond]
            exact ih _ _ _ j' (by simpa using hj) dS dT
              (List.mem_cons_of_mem _ hNf) (by simpa using hNdep)
          · simp only [if_neg hcond]
            have hcond' : ¬((result.status = StepStatus.Failed ∨
                result.status = StepStatus.Error) ∧ cfg.fail_fast = true) :=
              fun hc => hcond hc.1
            simp only [if_neg hcond']
            exact ih _ _ _ j' (by simpa using hj) dS dT hNf (by simpa using hNdep)

/-- C2 core: with fail-fast off, a failed or errored result for node N
makes every later step depending on N skipped and uninvoked. -/
lemma traceGo_dep_cascade (bk : TestBackend) (cfg : RunConfig)
    (h : GeneratedHarness) (hff : cfg.fail_fast = false) (N : String) :
    ∀ (steps : List PlanStep) (stop : Bool) (failed : List String) (ctx : RunContext)
      (i j : Nat), i < j → j < steps.length →
      ∀ (dS : PlanStep) (dT : StepResult × Bool × RunContext),
      (steps.getD i dS).node = N →
      (((executeStepsTraceGo bk cfg h steps stop failed ctx).getD i dT).1.status =
          StepStatus.Failed ∨
        ((executeStepsTraceGo bk cfg h steps stop failed ctx).getD i dT).1.status =
          StepStatus.Error) →
      N ∈ (steps.getD j dS).depends_on →
      ((executeStepsTraceGo bk cfg h steps stop failed ctx).getD j dT).1 =
        StepResult.skipped ((steps.getD j dS).node) ∧
      ((executeStepsTraceGo bk cfg h steps stop failed ctx).getD j dT).2.1 = false := by
  intro steps
  induction steps with
  | nil => intro stop failed ctx i j hij hj; simp at hj
  | cons s rest ih =>
    intro stop failed ctx i j hij hj dS dT hnode hstat hNdep
    cases stop with
    | true =>
      exfalso
      have hi : i < (s :: rest).length := lt_trans hij hj
      rw [traceGo_stop_skips bk cfg h (s :: rest) failed ctx i hi dS dT] at hstat
      simp [StepResult.skipped] at hstat
    | false =>
      by_cases hdep : has_failed_dependency s failed
      · cases i with
        | zero =>
          exfalso
          simp only [executeStepsTraceGo, hdep, if_true, if_false, Bool.false_eq_true,
            List.getD_cons_zero] at hstat
          simp [StepResult.skipped] at hstat
        | succ i' =>
          cases j with
          | zero => omega
          | succ j' =>
            simp only [executeStepsTraceGo, hdep, if_true, if_false, Bool.false_eq_true,
              List.getD_cons_succ] at hstat ⊢
            exact ih false failed ctx i' j' (by omega) (by simpa using hj) dS dT
              (by simpa using hnode) hstat (by simpa using hNdep)
      · cases i with
        | zero =>
          -- the head executed and failed: N joins the failed set
          simp only [executeStepsTraceGo, hdep, if_false, Bool.false_eq_true,
            List.getD_cons_zero] at hstat
          cases j with
          | zero => omega
          | succ j' =>
            simp only [executeStepsTraceGo, hdep, if_false, Bool.false_eq_true,
              List.getD_cons_succ]
            set result := (execute_step bk s h ctx).1 with hres
            have hcond : result.status = .Failed ∨ result.status = .Error := by
              simpa [hres] using hstat
            have hstopneg : ¬((result.status = StepStatus.Failed ∨
                result.status = StepStatus.Error) ∧ cfg.fail_fast = true) := by
              rintro ⟨_, hc⟩
              rw [hff] at hc
              cases hc
            simp only [if_pos hcond, if_neg hstopneg]
            have hNf : N ∈ s.node :: failed := by
              simp only [List.getD_cons_zero] at hnode
              rw [← hnode]
              exact List.mem_cons_self _ _
            exact traceGo_skip_of_failed_dep bk cfg h N rest false (s.node :: failed) _
              j' (by simpa using hj) dS dT hNf (by simpa using hNdep)
        | succ i' =>
          cases j with
          | zero => omega
          | succ j' =>
            simp only [executeStepsTraceGo, hdep, if_false, Bool.false_eq_true,
              List.getD_cons_succ] at hstat ⊢
            set result := (execute_step bk s h ctx).1 with hres
            have hstopneg : ¬((result.status = StepStatus.Failed ∨
                result.status = StepStatus.Error) ∧ cfg.fail_fast = true) := by
              rintro ⟨_, hc⟩
              rw [hff] at hc
              cases hc
            simp only [if_neg hstopneg] at hstat ⊢
            by_cases hcond : result.status = .Failed ∨ result.status = .Error
            · simp only [if_pos hcond] at hstat ⊢
              exact ih false _ _ i' j' (by omega) (by simpa using hj) dS dT
                (by simpa using hnode) hstat (by simpa using hNdep)
            · simp only [if_neg hcond] at hstat ⊢
              exact ih false _ _ i' j' (by omega) (by simpa using hj) dS dT
                (by simpa using hnode) hstat (by simpa using hNdep)

/-- C3 core: with fail-fast on, everything after a failed or errored
result is skipped and uninvoked. -/
lemma traceGo_fail_fast (bk : TestBackend) (cfg : RunConfig)
    (h : GeneratedHarness) (hff : cfg.fail_fast = true) :
    ∀ (steps : List PlanStep) (stop : Bool) (failed : List String) (ctx : RunContext)
      (i j : Nat), i < j → j < steps.length →
      ∀ (dS : PlanStep) (dT : StepResult × Bool × RunContext),
      (((executeStepsTraceGo bk cfg h steps stop failed ctx).getD i dT).1.status =
          StepStatus.Failed ∨
        ((executeStepsTraceGo bk cfg h steps stop failed ctx).getD i dT).1.status =
          StepStatus.Error) →
      ((executeStepsTraceGo bk cfg h steps stop failed ctx).getD j dT).1 =
        StepResult.skipped ((steps.getD j dS).node) ∧
      ((executeStepsTraceGo bk cfg h steps stop failed ctx).getD j dT).2.1 = false := by
  intro steps
  induction steps with
  | nil => intro stop failed ctx i j hij hj; simp at hj
  | cons s rest ih =>
    intro stop failed ctx i j hij hj dS dT hstat
    cases stop with
    | true =>
      exfalso
      have hi : i < (s :: rest).length := lt_trans hij hj
      rw [traceGo_stop_skips bk cfg h (s :: rest) failed ctx i hi dS dT] at hstat
      simp [StepResult.skipped] at hstat
    | false =>
      by_cases hdep : has_failed_dependency s failed
      · cases i with
        | zero =>
          exfalso
          simp only [executeStepsTraceGo, hdep, if_true, if_false, Bool.false_eq_true,
            List.getD_cons_zero] at hstat
          simp [StepResult.skipped] at hstat
        | succ i' =>
          cases j with
          | zero => omega
          | succ j' =>
            simp only [executeStepsTraceGo, hdep, if_true, if_false, Bool.false_eq_true,
              List.getD_cons_succ] at hstat ⊢
            exact ih false failed ctx i' j' (by omega) (by simpa using hj) dS dT hstat
      · cases i with
        | zero =>
          simp only [executeStepsTraceGo, hdep, if_false, Bool.false_eq_true,
            List.getD_cons_zero] at hstat
          cases j with
          | zero => omega
          | succ j' =>
            simp only [executeStepsTraceGo, hdep, if_false, Bool.false_eq_true,
              List.getD_cons_succ]
            set result := (execute_step bk s h ctx).1 with hres
            have hcond : result.status = .Failed ∨ result.status = .Error := by
              simpa [hres] using hstat
            have hstoppos : (result.status = StepStatus.Failed ∨
                result.status = StepStatus.Error) ∧ cfg.fail_fast = true := ⟨hcond, hff⟩
            simp only [if_pos hcond, if_pos hstoppos]
            rw [traceGo_stop_skips bk cfg h rest _ _ j' (by simpa using hj) dS dT]
            exact ⟨rfl, rfl⟩
        | succ i' =>
          cases j with
          | zero => omega
          | succ j' =>
            simp only [executeStepsTraceGo, hdep, if_false, Bool.false_eq_true,
              List.getD_cons_succ] at hstat ⊢
            set result := (execute_step bk s h ctx).1 with hres
            by_cases hcond : result.status = .Failed ∨ result.status = .Error
            · have hstoppos : (result.status = StepStatus.Failed ∨
                  result.status = StepStatus.Error) ∧ cfg.fail_fast = true := ⟨hcond, hff⟩
              simp only [if_pos hcond, if_pos hstoppos] at hstat ⊢
              exact ih true _ _ i' j' (by omega) (by simpa using hj) dS dT hstat
            · have hstopneg : ¬((result.status = StepStatus.Failed ∨
                  result.status = StepStatus.Error) ∧ cfg.fail_fast = true) :=
                fun hc => hcond hc.1
              simp only [if_neg hcond, if_neg hstopneg] at hstat ⊢
              exact ih false _ _ i' j' (by omega) (by simpa using hj) dS dT hstat

/-- C10 core: with fail-fast off, a step none of whose earlier same-named
dependencies failed or errored — and none of whose dependencies is
already in the failed set — is handed to the backend. -/
lemma traceGo_invoked (bk : TestBackend) (cfg : RunConfig)
    (h : GeneratedHarness) (hff : cfg.fail_fast = false) :
    ∀ (steps : List PlanStep) (failed : List String) (ctx : RunContext)
      (j : Nat), j < steps.length →
      ∀ (dS : PlanStep) (dT : StepResult × Bool × RunContext),
      (∀ N ∈ (steps.getD j dS).depends_on, N ∉ failed) →
      (∀ k, k < j → (steps.getD k dS).node ∈ (steps.getD j dS).depends_on →
        ¬(((executeStepsTraceGo bk cfg h steps false failed ctx).getD k dT).1.status =
            StepStatus.Failed ∨
          ((executeStepsTraceGo bk cfg h steps false failed ctx).getD k dT).1.status =
            StepStatus.Error)) →
      ((executeStepsTraceGo bk cfg h steps false failed ctx).getD j dT).2.1 = true := by
  intro steps
  induction steps with
  | nil => intro failed ctx j hj; simp at hj
  | cons s rest ih =>
    intro failed ctx j hj dS dT hnofail hnores
    by_cases hdep : has_failed_dependency s failed
    · cases j with
      | zero =>
        exfalso
        simp only [has_failed_dependency, List.any_eq_true] at hdep
        rcases hdep with ⟨N, hN1, hN2⟩
        exact hnofail N (by simpa using hN1) (List.elem_iff.mp hN2)
      | succ j' =>
        simp only [executeStepsTraceGo, hdep, if_true, if_false, Bool.false_eq_true,
          List.getD_cons_succ]
        refine ih failed ctx j' (by simpa using hj) dS dT (by simpa using hnofail) ?_
        intro k hk hkdep
        have := hnores (k + 1) (by omega) (by simpa using hkdep)
        simpa only [executeStepsTraceGo, hdep, if_true, if_false, Bool.false_eq_true,
          List.getD_cons_succ] using this
    · cases j with
      | zero =>
        simp only [executeStepsTraceGo, hdep, if_false, Bool.false_eq_true,
          List.getD_cons_zero]
      | succ j' =>
        simp only [executeStepsTraceGo, hdep, if_false, Bool.false_eq_true,
          List.getD_cons_succ]
        set result := (execute_step bk s h ctx).1 with hres
        have hstopneg : ¬((result.status = StepStatus.Failed ∨
            result.status = StepStatus.Error) ∧ cfg.fail_fast = true) := by
          rintro ⟨_, hc⟩
          rw [hff] at hc
          cases hc
        by_cases hcond : result.status = .Failed ∨ result.status = .Error
        · simp only [if_pos hcond, if_neg hstopneg]
          have hs_notdep : s.node ∉ (rest.getD j' dS).depends_on := by
            intro hmem
            apply hnores 0 (by omega)
            · simp only [List.getD_cons_zero]
              simpa using hmem
            · simp only [executeStepsTraceGo, hdep, if_false, Bool.false_eq_true,
                List.getD_cons_zero]
              exact hcond
          refine ih (s.node :: failed) _ j' (by simpa using hj) dS dT ?_ ?_
          · intro N hN hNmem
            rcases List.mem_cons.mp hNmem with heq | hNf
            · exact hs_notdep (heq ▸ hN)
            · exact hnofail N (by simpa using hN) hNf
          · intro k hk hkdep
            have := hnores (k + 1) (by omega) (by simpa using hkdep)
            simp only [executeStepsTraceGo, hdep, if_false, Bool.false_eq_true,
              List.getD_cons_succ] at this
            simp only [← hres, if_pos hcond, if_neg hstopneg] at this
            exact this
        · simp only [if_neg hcond, if_neg hstopneg]
          refine ih failed _ j' (by simpa using hj) dS dT (by simpa using hnofail) ?_
          intro k hk hkdep
          have := hnores (k + 1) (by omega) (by simpa using hkdep)
          simp only [executeStepsTraceGo, hdep, if_false, Bool.false_eq_true,
            List.getD_cons_succ] at this
          simp only [← hres, if_neg hcond, if_neg hstopneg] at this
          exact this

/-- C5 core: an invoked step with a non-empty output map leaves the
context mapping its node name to exactly that map. -/
lemma traceGo_ctx_outputs (bk : TestBackend) (cfg : RunConfig)
    (h : GeneratedHarness) :
    ∀ (steps : List PlanStep) (stop : Bool) (failed : List String) (ctx : RunContext)
      (j : Nat), j < steps.length →
      ∀ (dS : PlanStep) (dT : StepResult × Bool × RunContext),
      ((executeStepsTraceGo bk cfg h steps stop failed ctx).getD j dT).2.1 = true →
      ((executeStepsTraceGo bk cfg h steps stop failed ctx).getD j dT).1.outputs ≠ [] →
      (((executeStepsTraceGo bk cfg h steps stop failed ctx).getD j dT).2.2).lookup
          ((steps.getD j dS).node) =
        some (((executeStepsTraceGo bk cfg h steps stop failed ctx).getD j dT).1.outputs) := by
  intro steps
  induction steps with
  | nil => intro stop failed ctx j hj; simp at hj
  | cons s rest ih =>
    intro stop failed ctx j hj dS dT hinv houts
    cases stop with
    | true =>
      exfalso
      rw [traceGo_stop_skips bk cfg h (s :: rest) failed ctx j hj dS dT] at hinv
      simp at hinv
    | false =>
      by_cases hdep : has_failed_dependency s failed
      · cases j with
        | zero =>
          exfalso
          simp only [executeStepsTraceGo, hdep, if_true, if_false, Bool.false_eq_true,
            List.getD_cons_zero] at hinv
        | succ j' =>
          simp only [executeStepsTraceGo, hdep, if_true, if_false, Bool.false_eq_true,
            List.getD_cons_succ] at hinv houts ⊢
          exact ih false failed ctx j' (by simpa using hj) dS dT hinv houts
      · cases j with
        | zero =>
          simp only [executeStepsTraceGo, hdep, if_false, Bool.false_eq_true,
            List.getD_cons_zero] at houts ⊢
          simp only [if_pos houts]
          simp [RunContext.record_outputs, RunContext.lookup, List.find?_cons]
        | succ j' =>
          simp only [executeStepsTraceGo, hdep, if_false, Bool.false_eq_true,
            List.getD_cons_succ] at hinv houts ⊢
          exact ih _ _ _ j' (by simpa using hj) dS dT hinv houts

/-- Witness for the amended C4 on a concrete unresolvable parameter. -/
theorem lower_step_params_amended_witness :
    ((⟨"missing", none, BindingSource.Unresolved⟩ : ParameterBinding) ∈
        (lower_step_data c4wStep c4wFixtures).2) ∧
    ((∃ kv, (lower_step_data c4wStep c4wFixtures).1.find?
        (fun p => p.1 = (⟨"missing", none, BindingSource.Unresolved⟩ :
          ParameterBinding).name) = some kv ∧
        (⟨"missing", none, BindingSource.Unresolved⟩ :
          ParameterBinding).value = some kv.2 ∧
        (⟨"missing", none, BindingSource.Unresolved⟩ :
          ParameterBinding).source = BindingSource.EdgeData "") ∨
      ((lower_step_data c4wStep c4wFixtures).1.find?
        (fun p => p.1 = (⟨"missing", none, BindingSource.Unresolved⟩ :
          ParameterBinding).name) = none ∧
        (⟨"missing", none, BindingSource.Unresolved⟩ :
          ParameterBinding).value = none ∧
        (⟨"missing", none, BindingSource.Unresolved⟩ :
          ParameterBinding).source = BindingSource.Unresolved)) :=
  ⟨by decide,
    (lower_step_params_amended c4wStep c4wFixtures).2
      ⟨"missing", none, BindingSource.Unresolved⟩ (by decide)⟩

/-! ### Claims C2, C3, C5 and C10: the executor -/

/-- C2: in a run with fail-fast off, if the recorded result of the plan
step for node N is failed or errored, then every later plan step whose
depends_on list contains N is recorded as skipped (zero duration, per
`StepResult.skipped`) and the backend's execute-step is not invoked for
it. -/
theorem execute_steps_skip_cascade
    (backend : TestBackend) (cfg : RunConfig) (harness : GeneratedHarness)
    (plan : TestPlan) (context : RunContext)
    (N : String) (i j : Nat) (dS : PlanStep) (dR : StepResult)
    (dT : StepResult × Bool × RunContext)
    (hff : cfg.fail_fast = false)
    (hij : i < j) (hj : j < plan.steps.length)
    (hnode : (plan.steps.getD i dS).node = N)
    (hfail : ((execute_steps backend cfg harness plan context).getD i dR).status =
        StepStatus.Failed ∨
      ((execute_steps backend cfg harness plan context).getD i dR).status =
        StepStatus.Error)
    (hdep : N ∈ (plan.steps.getD j dS).depends_on) :
    (execute_steps backend cfg harness plan context).getD j dR =
      StepResult.skipped ((plan.steps.getD j dS).node) ∧
    ((execute_steps_trace backend cfg harness plan context).getD j dT).2.1 = false := by
  have hi : i < plan.steps.length := lt_trans hij hj
  simp only [execute_steps] at hfail ⊢
  simp only [execute_steps_trace]
  rw [executeStepsGo_getD_eq_trace backend cfg harness plan.steps false [] context
    i hi dR dT] at hfail
  have hmain := traceGo_dep_cascade backend cfg harness hff N plan.steps false []
    context i j hij hj dS dT hnode hfail hdep
  refine ⟨?_, hmain.2⟩
  rw [executeStepsGo_getD_eq_trace backend cfg harness plan.steps false [] context
    j hj dR dT]
  exact hmain.1

/-- Witness for C2: B fails, C depends on B and is skipped uninvoked. -/
theorem execute_steps_skip_cascade_witness :
    (cxConfig.fail_fast = false ∧ (1 : Nat) < 2 ∧ 2 < planABC.steps.length ∧
      (planABC.steps.getD 1 (mkPlanStep 0 "" [])).node = "B" ∧
      (((execute_steps bkFailB cxConfig cxHarness planABC cxContext).getD 1
          (StepResult.skipped "")).status = StepStatus.Failed ∨
        ((execute_steps bkFailB cxConfig cxHarness planABC cxContext).getD 1
          (StepResult.skipped "")).status = StepStatus.Error) ∧
      "B" ∈ (planABC.steps.getD 2 (mkPlanStep 0 "" [])).depends_on) ∧
    ((execute_steps bkFailB cxConfig cxHarness planABC cxContext).getD 2
        (StepResult.skipped "") =
      StepResult.skipped ((planABC.steps.getD 2 (mkPlanStep 0 "" [])).node) ∧
    ((execute_steps_trace bkFailB cxConfig cxHarness planABC cxContext).getD 2
        dTrace).2.1 = false) :=
  ⟨⟨by decide, by decide, by decide, by decide, by decide, by decide⟩,
    execute_steps_skip_cascade bkFailB cxConfig cxHarness planABC cxContext
      "B" 1 2 (mkPlanStep 0 "" []) (StepResult.skipped "") dTrace
      (by decide) (by decide) (by decide) (by decide) (by decide) (by decide)⟩

/-- C3: in a run with fail-fast on, after a step result with status
failed or errored, every subsequent plan step is recorded as skipped and
the backend is not invoked for it. -/
theorem execute_steps_fail_fast
    (backend : TestBackend) (cfg : RunConfig) (harness : GeneratedHarness)
    (plan : TestPlan) (context : RunContext)
    (i j : Nat) (dS : PlanStep) (dR : StepResult)
    (dT : StepResult × Bool × RunContext)
    (hff : cfg.fail_fast = true)
    (hij : i < j) (hj : j < plan.steps.length)
    (hfail : ((execute_steps backend cfg harness plan context).getD i dR).status =
        StepStatus.Failed ∨
      ((execute_steps backend cfg harness plan context).getD i dR).status =
        StepStatus.Error) :
    (execute_steps backend cfg harness plan context).getD j dR =
      StepResult.skipped ((plan.steps.getD j dS).node) ∧
    ((execute_steps_trace backend cfg harness plan context).getD j dT).2.1 = false := by
  have hi : i < plan.steps.length := lt_trans hij hj
  simp only [execute_steps] at hfail ⊢
  simp only [execute_steps_trace]
  rw [executeStepsGo_getD_eq_trace backend cfg harness plan.steps false [] context
    i hi dR dT] at hfail
  have hmain := traceGo_fail_fast backend cfg harness hff plan.steps false []
    context i j hij hj dS dT hfail
  refine ⟨?_, hmain.2⟩
  rw [executeStepsGo_getD_eq_trace backend cfg harness plan.steps false [] context
    j hj dR dT]
  exact hmain.1

/-- Witness for C3: with fail-fast, after B fails every later step is
skipped uninvoked. -/
theorem execute_steps_fail_fast_witness :
    (cxConfigFF.fail_fast = true ∧ (1 : Nat) < 2 ∧ 2 < planABC.steps.length ∧
      (((execute_steps bkFailB cxConfigFF cxHarness planABC cxContext).getD 1
          (StepResult.skipped "")).status = StepStatus.Failed ∨
        ((execute_steps bkFailB cxConfigFF cxHarness planABC cxContext).getD 1
          (StepResult.skipped "")).status = StepStatus.Error)) ∧
    ((execute_steps bkFailB cxConfigFF cxHarness planABC cxContext).getD 2
        (StepResult.skipped "") =
      StepResult.skipped ((planABC.steps.getD 2 (mkPlanStep 0 "" [])).node) ∧
    ((execute_steps_trace bkFailB cxConfigFF cxHarness planABC cxContext).getD 2
        dTrace).2.1 = false) :=
  ⟨⟨by decide, by decide, by decide, by decide⟩,
    execute_steps_fail_fast bkFailB cxConfigFF cxHarness planABC cxContext
      1 2 (mkPlanStep 0 "" []) (StepResult.skipped "") dTrace
      (by decide) (by decide) (by decide) (by decide)⟩

/-- C10: skipped steps never enter the failed-nodes set — with fail-fast
off, a plan step none of whose earlier same-named dependency steps
recorded a failed or errored result (in particular one all of whose
dependencies were merely skipped) is handed to the backend rather than
skipped, so skip cascades do not propagate transitively. -/
theorem execute_steps_no_transitive_skip
    (backend : TestBackend) (cfg : RunConfig) (harness : GeneratedHarness)
    (plan : TestPlan) (context : RunContext)
    (j : Nat) (dS : PlanStep) (dR : StepResult) (dT : StepResult × Bool × RunContext)
    (hff : cfg.fail_fast = false)
    (hj : j < plan.steps.length)
    (hnores : ∀ k, k < j →
      (plan.steps.getD k dS).node ∈ (plan.steps.getD j dS).depends_on →
      ¬(((execute_steps backend cfg harness plan context).getD k dR).status =
          StepStatus.Failed ∨
        ((execute_steps backend cfg harness plan context).getD k dR).status =
          StepStatus.Error)) :
    ((execute_steps_trace backend cfg harness plan context).getD j dT).2.1 = true := by
  simp only [execute_steps_trace]
  apply traceGo_invoked backend cfg harness hff plan.steps [] context j hj dS dT
  · intro N _ hN
    exact absurd hN (List.not_mem_nil N)
  · intro k hk hkdep
    have hklen : k < plan.steps.length := lt_trans hk hj
    have hmain := hnores k hk hkdep
    simp only [execute_steps] at hmain
    rw [executeStepsGo_getD_eq_trace backend cfg harness plan.steps false [] context
      k hklen dR dT] at hmain
    exact hmain

/-- Witness for C10: A fails, B (depending on A) is skipped, yet C
(depending only on the skipped B) is still invoked. -/
theorem execute_steps_no_transitive_skip_witness :
    (cxConfig.fail_fast = false ∧ 2 < planABC.steps.length ∧
      "B" ∈ (planABC.steps.getD 2 (mkPlanStep 0 "" [])).depends_on ∧
      ((execute_steps bkFailA cxConfig cxHarness planABC cxContext).getD 1
          (StepResult.skipped "")).status = StepStatus.Skipped) ∧
    ((execute_steps_trace bkFailA cxConfig cxHarness planABC cxContext).getD 2
        dTrace).2.1 = true :=
  ⟨⟨by decide, by decide, by decide, by decide⟩,
    execute_steps_no_transitive_skip bkFailA cxConfig cxHarness planABC cxContext
      2 (mkPlanStep 0 "" []) (StepResult.skipped "") dTrace (by decide) (by decide)
      (by
        intro k hk hkdep
        interval_cases k <;> revert hkdep <;> decide)⟩

/-- C5 counterexample: a step executed with an empty output map leaves
no context entry at all for its node — the context does not map the node
name to the empty map as the claim requires. -/
theorem execute_steps_empty_outputs_not_recorded_cex :
    ((execute_steps_trace bkNoOutputs cxConfig cxHarness planA cxContext).getD 0
        dTrace).2.1 = true ∧
    ((execute_steps_trace bkNoOutputs cxConfig cxHarness planA cxContext).getD 0
        dTrace).1.outputs = [] ∧
    (((execute_steps_trace bkNoOutputs cxConfig cxHarness planA cxContext).getD 0
        dTrace).2.2).lookup "A" = none := by
  decide

/-- C5 amended: after each executed step completes with a non-empty
output map, that map is recorded into the run context keyed by the
step's node name, so the context afterwards maps the node name to
exactly that output map; an executed step whose output map is empty is
not recorded. -/
theorem execute_steps_records_nonempty_outputs
    (backend : TestBackend) (cfg : RunConfig) (harness : GeneratedHarness)
    (plan : TestPlan) (context : RunContext)
    (j : Nat) (dS : PlanStep) (dT : StepResult × Bool × RunContext)
    (hj : j < plan.steps.length)
    (hinv : ((execute_steps_trace backend cfg harness plan context).getD j dT).2.1 =
      true)
    (hne : ((execute_steps_trace backend cfg harness plan context).getD j dT).1.outputs ≠
      []) :
    (((execute_steps_trace backend cfg harness plan context).getD j dT).2.2).lookup
        ((plan.steps.getD j dS).node) =
      some (((execute_steps_trace backend cfg harness plan context).getD j
        dT).1.outputs) := by
  simp only [execute_steps_trace] at hinv hne ⊢
  exact traceGo_ctx_outputs backend cfg harness plan.steps false [] context j hj dS dT
    hinv hne

/-- Witness for the amended C5 on a step producing x ↦ 1. -/
theorem execute_steps_records_nonempty_outputs_witness :
    ((0 : Nat) < planA.steps.length ∧
      ((execute_steps_trace bkOutputs cxConfig cxHarness planA cxContext).getD 0
        dTrace).2.1 = true ∧
      ((execute_steps_trace bkOutputs cxConfig cxHarness planA cxContext).getD 0
        dTrace).1.outputs ≠ []) ∧
    (((execute_steps_trace bkOutputs cxConfig cxHarness planA cxContext).getD 0
        dTrace).2.2).lookup ((planA.steps.getD 0 (mkPlanStep 0 "" [])).node) =
      some (((execute_steps_trace bkOutputs cxConfig cxHarness planA cxContext).getD 0
        dTrace).1.outputs) :=
  ⟨⟨by decide, by decide, by decide⟩,
    execute_steps_records_nonempty_outputs bkOutputs cxConfig cxHarness planA cxContext
      0 (mkPlanStep 0 "" []) dTrace (by decide) (by decide) (by decide)⟩

end Tast
